import Mathlib

/-
  Verification development for the fftool topology construction and
  force-field assignment engine (src/fftool.py and src/fftool_tri.py).

  The Python code is shallowly embedded over the real numbers: every
  floating-point quantity of the source becomes an element of the real
  field, every Python list becomes a Lean List, and every function that
  can call sys.exit or raise becomes an Option- or Except-valued
  function.  Definitions follow the source line by line; deviations
  forced by the embedding (for example Python round's half-to-even
  tie-breaking made explicit) are noted in comments near the definition.
-/

open Real

namespace FFTool

/-! ### vector (class vector, fftool.py lines 90-141) -/

/-- 3d vector with real components, mirroring class vector. -/
structure vector where
  x : ℝ
  y : ℝ
  z : ℝ

namespace vector

instance : Zero vector := ⟨⟨0, 0, 0⟩⟩

instance : Add vector := ⟨fun a b => ⟨a.x + b.x, a.y + b.y, a.z + b.z⟩⟩

instance : Sub vector := ⟨fun a b => ⟨a.x - b.x, a.y - b.y, a.z - b.z⟩⟩

instance : Neg vector := ⟨fun a => ⟨-a.x, -a.y, -a.z⟩⟩

/-- scalar multiple, the non-vector branch of vector.__mul__. -/
def scale (a : vector) (s : ℝ) : vector := ⟨a.x * s, a.y * s, a.z * s⟩

/-- dot product, the vector branch of vector.__mul__. -/
def dot (a b : vector) : ℝ := a.x * b.x + a.y * b.y + a.z * b.z

/-- vector.cross -/
def cross (a b : vector) : vector :=
  ⟨a.y * b.z - a.z * b.y, a.z * b.x - a.x * b.z, a.x * b.y - a.y * b.x⟩

/-- vector.__abs__: sqrt(x**2 + y**2 + z**2). -/
noncomputable def vabs (a : vector) : ℝ := Real.sqrt (a.x ^ 2 + a.y ^ 2 + a.z ^ 2)

/-- vector.unit: componentwise division by the norm. -/
noncomputable def unit (a : vector) : vector :=
  ⟨a.x / a.vabs, a.y / a.vabs, a.z / a.vabs⟩

theorem ext_xyz {a b : vector} (hx : a.x = b.x) (hy : a.y = b.y) (hz : a.z = b.z) :
    a = b := by
  cases a; cases b; simp_all

theorem add_def (a b : vector) : a + b = ⟨a.x + b.x, a.y + b.y, a.z + b.z⟩ := rfl

theorem sub_def (a b : vector) : a - b = ⟨a.x - b.x, a.y - b.y, a.z - b.z⟩ := rfl

theorem zero_def : (0 : vector) = ⟨0, 0, 0⟩ := rfl

theorem dot_comm (a b : vector) : dot a b = dot b a := by
  simp only [dot]; ring

theorem dot_self_nonneg (a : vector) : 0 ≤ dot a a := by
  simp only [dot]
  nlinarith [sq_nonneg a.x, sq_nonneg a.y, sq_nonneg a.z]

theorem vabs_sq (a : vector) : a.vabs ^ 2 = dot a a := by
  have h := dot_self_nonneg a
  simp only [vabs, dot] at *
  rw [Real.sq_sqrt]; · ring_nf
  nlinarith [sq_nonneg a.x, sq_nonneg a.y, sq_nonneg a.z]

theorem vabs_nonneg (a : vector) : 0 ≤ a.vabs := Real.sqrt_nonneg _

theorem vabs_eq_sqrt_dot (a : vector) : a.vabs = Real.sqrt (dot a a) := by
  simp only [vabs, dot]; ring_nf

theorem dot_self_eq_zero_iff (a : vector) : dot a a = 0 ↔ a = 0 := by
  constructor
  · intro h
    simp only [dot] at h
    have hx : a.x = 0 := by nlinarith [sq_nonneg a.x, sq_nonneg a.y, sq_nonneg a.z]
    have hy : a.y = 0 := by nlinarith [sq_nonneg a.x, sq_nonneg a.y, sq_nonneg a.z]
    have hz : a.z = 0 := by nlinarith [sq_nonneg a.x, sq_nonneg a.y, sq_nonneg a.z]
    exact ext_xyz hx hy hz
  · intro h; subst h; simp [dot, zero_def]

theorem vabs_pos_of_ne_zero {a : vector} (h : a ≠ 0) : 0 < a.vabs := by
  rcases lt_or_eq_of_le (vabs_nonneg a) with h1 | h1
  · exact h1
  · exfalso
    apply h
    have h2 : a.vabs ^ 2 = 0 := by rw [← h1]; ring
    rw [vabs_sq] at h2
    exact (dot_self_eq_zero_iff a).mp h2

theorem vabs_eq_zero : ∀ (a : vector), a.vabs = 0 ↔ a = 0 := by
  intro a
  constructor
  · intro h
    have h2 : a.vabs ^ 2 = 0 := by rw [h]; ring
    rw [vabs_sq] at h2
    exact (dot_self_eq_zero_iff a).mp h2
  · intro h; subst h; simp [vabs, zero_def]

/-- Lagrange identity for the cross product. -/
theorem cross_dot_self (a b : vector) :
    dot (cross a b) (cross a b) = dot a a * dot b b - dot a b ^ 2 := by
  simp only [dot, cross]; ring

theorem dot_cross_left (a b : vector) : dot (cross a b) a = 0 := by
  simp only [dot, cross]; ring

theorem dot_cross_right (a b : vector) : dot (cross a b) b = 0 := by
  simp only [dot, cross]; ring

/-- (a x b) x a = (a.a) b - (a.b) a. -/
theorem cross_cross_left (a b : vector) :
    cross (cross a b) a = (b.scale (dot a a)) - (a.scale (dot a b)) := by
  simp only [cross, scale, dot, sub_def]
  exact ext_xyz (by ring) (by ring) (by ring)

/-- (a x b) x b = (a.b) b - (b.b) a. -/
theorem cross_cross_right (a b : vector) :
    cross (cross a b) b = (b.scale (dot a b)) - (a.scale (dot b b)) := by
  simp only [cross, scale, dot, sub_def]
  exact ext_xyz (by ring) (by ring) (by ring)

theorem cross_scale_left (a b : vector) (s : ℝ) :
    cross (a.scale s) b = (cross a b).scale s := by
  simp only [cross, scale]
  exact ext_xyz (by ring) (by ring) (by ring)

theorem cross_scale_right (a b : vector) (s : ℝ) :
    cross a (b.scale s) = (cross a b).scale s := by
  simp only [cross, scale]
  exact ext_xyz (by ring) (by ring) (by ring)

theorem cross_self (a : vector) : cross a a = 0 := by
  simp only [cross, zero_def]
  exact ext_xyz (by ring) (by ring) (by ring)

theorem dot_scale_left (a b : vector) (s : ℝ) : dot (a.scale s) b = s * dot a b := by
  simp only [dot, scale]; ring

theorem dot_scale_right (a b : vector) (s : ℝ) : dot a (b.scale s) = s * dot a b := by
  simp only [dot, scale]; ring

theorem dot_add_left (a b c : vector) : dot (a + b) c = dot a c + dot b c := by
  simp only [dot, add_def]; ring

theorem dot_add_right (a b c : vector) : dot a (b + c) = dot a b + dot a c := by
  simp only [dot, add_def]; ring

theorem vabs_scale (a : vector) (s : ℝ) : (a.scale s).vabs = |s| * a.vabs := by
  simp only [vabs, scale]
  rw [show (a.x * s) ^ 2 + (a.y * s) ^ 2 + (a.z * s) ^ 2
        = s ^ 2 * (a.x ^ 2 + a.y ^ 2 + a.z ^ 2) by ring]
  rw [Real.sqrt_mul (by positivity), Real.sqrt_sq_eq_abs]

/-- unit a is a rescaling of a. -/
theorem unit_eq_scale (a : vector) : a.unit = a.scale (1 / a.vabs) := by
  simp only [unit, scale]
  exact ext_xyz (by ring) (by ring) (by ring)

end vector

/-! ### global tolerances (fftool.py lines 26-27) -/

/-- BondTol = 0.25 Angstrom. -/
noncomputable def BondTol : ℝ := 0.25

/-- AngleTol = 15.0 degrees. -/
noncomputable def AngleTol : ℝ := 15.0

/-! ### Python round

Python's builtin round on floats rounds to the nearest integer with
ties broken towards the even integer (banker's rounding).  The source
relies on it for the minimum-image convention. -/

open Classical in
/-- Python round(x): nearest integer, ties to even. -/
noncomputable def pround (x : ℝ) : ℤ :=
  if Int.fract x < 1 / 2 then ⌊x⌋
  else if 1 / 2 < Int.fract x then ⌊x⌋ + 1
  else if Even ⌊x⌋ then ⌊x⌋ else ⌊x⌋ + 1

/-! ### cell (class cell, fftool.py lines 1351-1409)

The source rounds the cosines and sine of the lattice angles to 14
digits to compensate for float noise in math.cos/math.sin; over the
real field the trigonometric values are exact, so the embedding omits
that rounding. -/

/-- Simulation cell (class cell), holding the six lattice parameters,
the periodicity string (as a character list) and the centering flag. -/
structure cell where
  a : ℝ
  b : ℝ
  c : ℝ
  alpha : ℝ
  beta : ℝ
  gamma : ℝ
  pbc : List Char
  center : Bool

namespace cell

/-- triclinic flag: any lattice angle different from 90 degrees. -/
def triclinic (bx : cell) : Prop :=
  bx.alpha ≠ 90 ∨ bx.beta ≠ 90 ∨ bx.gamma ≠ 90

noncomputable def ca (bx : cell) : ℝ := Real.cos (bx.alpha * Real.pi / 180)

noncomputable def cb (bx : cell) : ℝ := Real.cos (bx.beta * Real.pi / 180)

noncomputable def cg (bx : cell) : ℝ := Real.cos (bx.gamma * Real.pi / 180)

noncomputable def sg (bx : cell) : ℝ := Real.sin (bx.gamma * Real.pi / 180)

/-- cell volume, vol = a b c sqrt(1 - ca^2 - cb^2 - cg^2 + 2 ca cb cg). -/
noncomputable def vol (bx : cell) : ℝ :=
  bx.a * bx.b * bx.c *
    Real.sqrt (1 - bx.ca ^ 2 - bx.cb ^ 2 - bx.cg ^ 2 + 2 * bx.ca * bx.cb * bx.cg)

noncomputable def lx (bx : cell) : ℝ := bx.a

noncomputable def xy (bx : cell) : ℝ := bx.b * bx.cg

noncomputable def xz (bx : cell) : ℝ := bx.c * bx.cb

noncomputable def ly (bx : cell) : ℝ := bx.b * bx.sg

noncomputable def yz (bx : cell) : ℝ := bx.c * (bx.ca - bx.cb * bx.cg) / bx.sg

noncomputable def lz (bx : cell) : ℝ := bx.vol / (bx.a * bx.b * bx.sg)

/-- fractional to cartesian transform (cell.ftoc). -/
noncomputable def ftoc (bx : cell) (v : vector) : vector :=
  ⟨bx.a * v.x + bx.b * bx.cg * v.y + bx.c * bx.cb * v.z,
   bx.b * bx.sg * v.y + bx.c * (bx.ca - bx.cb * bx.cg) / bx.sg * v.z,
   bx.vol / (bx.a * bx.b * bx.sg) * v.z⟩

/-- cartesian to fractional transform (cell.ctof). -/
noncomputable def ctof (bx : cell) (v : vector) : vector :=
  ⟨1 / bx.a * v.x + -bx.cg / (bx.a * bx.sg) * v.y
      + bx.b * bx.c * (bx.ca * bx.cg - bx.cb) / (bx.vol * bx.sg) * v.z,
   1 / (bx.b * bx.sg) * v.y + bx.a * bx.c * (bx.cb * bx.cg - bx.ca) / (bx.vol * bx.sg) * v.z,
   bx.a * bx.b * bx.sg / bx.vol * v.z⟩

end cell

/-! ### dist2atoms and angle3atoms (fftool.py lines 178-249)

Atom objects enter these functions only through their x, y, z
coordinates, so the embedding takes the two positions as vectors. -/

open Classical in
/-- dist2atoms: distance between two atom positions, applying the
minimum-image correction per enabled pbc axis. -/
noncomputable def dist2atoms (ati atj : vector) (box : Option cell) : ℝ :=
  let dx := atj.x - ati.x
  let dy := atj.y - ati.y
  let dz := atj.z - ati.z
  match box with
  | none => Real.sqrt (dx * dx + dy * dy + dz * dz)
  | some bx =>
    if bx.triclinic then
      let fi := bx.ctof ati
      let fj := bx.ctof atj
      let fd : vector := ⟨fj.x - fi.x, fj.y - fi.y, fj.z - fi.z⟩
      let fd : vector := ⟨if 'x' ∈ bx.pbc then fd.x - pround fd.x else fd.x,
                          if 'y' ∈ bx.pbc then fd.y - pround fd.y else fd.y,
                          if 'z' ∈ bx.pbc then fd.z - pround fd.z else fd.z⟩
      let d := bx.ftoc fd
      Real.sqrt (d.x * d.x + d.y * d.y + d.z * d.z)
    else
      let dx := if 'x' ∈ bx.pbc then dx - pround (dx / bx.lx) * bx.lx else dx
      let dy := if 'y' ∈ bx.pbc then dy - pround (dy / bx.ly) * bx.ly else dy
      let dz := if 'z' ∈ bx.pbc then dz - pround (dz / bx.lz) * bx.lz else dz
      Real.sqrt (dx * dx + dy * dy + dz * dz)

open Classical in
/-- angle3atoms: angle at atj formed by ati and atk, in degrees. -/
noncomputable def angle3atoms (ati atj atk : vector) (box : Option cell) : ℝ :=
  let dji : vector := ⟨ati.x - atj.x, ati.y - atj.y, ati.z - atj.z⟩
  let djk : vector := ⟨atk.x - atj.x, atk.y - atj.y, atk.z - atj.z⟩
  let p : vector × vector :=
    match box with
    | none => (dji, djk)
    | some bx =>
      if bx.triclinic then
        let fi := bx.ctof ati
        let fj := bx.ctof atj
        let fk := bx.ctof atk
        let fdji : vector := ⟨fi.x - fj.x, fi.y - fj.y, fi.z - fj.z⟩
        let fdjk : vector := ⟨fk.x - fj.x, fk.y - fj.y, fk.z - fj.z⟩
        let fdji : vector := ⟨if 'x' ∈ bx.pbc then fdji.x - pround fdji.x else fdji.x,
                              if 'y' ∈ bx.pbc then fdji.y - pround fdji.y else fdji.y,
                              if 'z' ∈ bx.pbc then fdji.z - pround fdji.z else fdji.z⟩
        let fdjk : vector := ⟨if 'x' ∈ bx.pbc then fdjk.x - pround fdjk.x else fdjk.x,
                              if 'y' ∈ bx.pbc then fdjk.y - pround fdjk.y else fdjk.y,
                              if 'z' ∈ bx.pbc then fdjk.z - pround fdjk.z else fdjk.z⟩
        (bx.ftoc fdji, bx.ftoc fdjk)
      else
        let wrap : vector → vector := fun v =>
          ⟨if 'x' ∈ bx.pbc then v.x - pround (v.x / bx.lx) * bx.lx else v.x,
           if 'y' ∈ bx.pbc then v.y - pround (v.y / bx.ly) * bx.ly else v.y,
           if 'z' ∈ bx.pbc then v.z - pround (v.z / bx.lz) * bx.lz else v.z⟩
        (wrap dji, wrap djk)
  Real.arccos (vector.dot p.1 p.2 / (p.1.vabs * p.2.vabs)) * 180 / Real.pi

/-- Denominator of the acos argument in angle3atoms with no box: when it
is zero the Python source raises an unguarded ZeroDivisionError.  This
predicate captures exactly those inputs. -/
noncomputable def angle3atomsDenom (ati atj atk : vector) : ℝ :=
  vector.vabs ⟨ati.x - atj.x, ati.y - atj.y, ati.z - atj.z⟩ *
    vector.vabs ⟨atk.x - atj.x, atk.y - atj.y, atk.z - atj.z⟩

/-- Denominator of vector.unit: zero causes a Python ZeroDivisionError. -/
noncomputable def unitDenom (v : vector) : ℝ := v.vabs

/-! ### force-field records (classes atom/bond/angle/dihed/dimpr used as
database templates, and class forcefield)

After forcefield.__init__ returns, every bond and angle template has had
seteqval called on it, which exits unless the potential is harm or cons
and otherwise stores par[0] as the equilibrium value.  The embedding
carries the stored equilibrium value as a field and exposes seteqval as
the function relating it to pot and par. -/

/-- atom record of the force-field atom table. -/
structure ffatom where
  name : String
  type : String
  m : ℝ
  q : ℝ
  pot : String
  par : List ℝ

/-- bond template of the force-field bond table, after seteqval. -/
structure ffbond where
  iatp : String
  jatp : String
  pot : String
  par : List ℝ
  eqval : ℝ

/-- angle template of the force-field angle table, after seteqval. -/
structure ffangle where
  iatp : String
  jatp : String
  katp : String
  pot : String
  par : List ℝ
  eqval : ℝ

/-- dihedral or improper template of the force-field tables. -/
structure ffdihed where
  iatp : String
  jatp : String
  katp : String
  latp : String
  pot : String
  par : List ℝ

/-- bond.seteqval and angle.seteqval: par[0] for harm and cons
potentials, sys.exit (none) otherwise. -/
def seteqval (pot : String) (par : List ℝ) : Option ℝ :=
  if pot = "harm" then some (par.getD 0 0)
  else if pot = "cons" then some (par.getD 0 0)
  else none

/-- bond template name, '{iatp}-{jatp}'. -/
def ffbond.name (t : ffbond) : String := t.iatp ++ "-" ++ t.jatp

/-- angle template name, '{iatp}-{jatp}-{katp}'. -/
def ffangle.name (t : ffangle) : String := t.iatp ++ "-" ++ t.jatp ++ "-" ++ t.katp

/-- dihedral / improper template name, '{iatp}-{jatp}-{katp}-{latp}'. -/
def ffdihed.name (t : ffdihed) : String :=
  t.iatp ++ "-" ++ t.jatp ++ "-" ++ t.katp ++ "-" ++ t.latp

open Classical in
/-- bond.checkval: |r - eqval| < BondTol. -/
noncomputable def bondCheckval (t : ffbond) (r : ℝ) : Bool :=
  if |r - t.eqval| < BondTol then true else false

open Classical in
/-- angle.checkval: |th - eqval| < AngleTol. -/
noncomputable def angleCheckval (t : ffangle) (th : ℝ) : Bool :=
  if |th - t.eqval| < AngleTol then true else false

/-! ### molecule-side records (the same Python classes used inside a
molecule: atoms carry coordinates, bonded terms carry 0-based atom
indices; the name/pot/par fields are filled in by setpar during
matching and default to empty beforehand). -/

/-- atom of a molecule. -/
structure matom where
  name : String
  type : String
  q : ℝ
  pot : String
  par : List ℝ
  x : ℝ
  y : ℝ
  z : ℝ
  ityp : ℤ

instance : Inhabited matom := ⟨⟨"", "", 0, "", [], 0, 0, 0, -1⟩⟩

/-- position of a molecule atom as a vector. -/
def matom.pos (at_ : matom) : vector := ⟨at_.x, at_.y, at_.z⟩

/-- bond of a molecule. -/
structure mbond where
  i : Nat
  j : Nat
  name : String
  pot : String
  par : List ℝ

instance : Inhabited mbond := ⟨⟨0, 0, "", "", []⟩⟩

/-- fresh bond as built by the enumerator or parser, bond(i, j). -/
def mkbond (i j : Nat) : mbond := ⟨i, j, "", "", []⟩

/-- valence angle of a molecule. -/
structure mangle where
  i : Nat
  j : Nat
  k : Nat
  name : String
  pot : String
  par : List ℝ

instance : Inhabited mangle := ⟨⟨0, 0, 0, "", "", []⟩⟩

/-- dihedral or improper of a molecule. -/
structure mdihed where
  i : Nat
  j : Nat
  k : Nat
  l : Nat
  name : String
  pot : String
  par : List ℝ

instance : Inhabited mdihed := ⟨⟨0, 0, 0, 0, "", "", []⟩⟩

/-- type of the atom at index i of the molecule's atom list. -/
def atomType (atoms : List matom) (i : Nat) : String := (atoms.getD i default).type

/-- position of the atom at index i of the molecule's atom list. -/
def atomPos (atoms : List matom) (i : Nat) : vector := (atoms.getD i default).pos

/-! ### mol.anglesdiheds (fftool.py lines 859-929) -/

/-- neighbour list of atom i scanned in bond-list order, as in the two
neighbour-gathering loops of mol.anglesdiheds. -/
def neighbors (bonds : List mbond) (i : Nat) : List Nat :=
  bonds.foldl
    (fun neib bd =>
      if i = bd.i then neib ++ [bd.j]
      else if i = bd.j then neib ++ [bd.i]
      else neib) []

/-- angle enumeration of mol.anglesdiheds: for every atom i and every
pair k < l of its neighbours, the angle (neib[k], i, neib[l]). -/
def enumAngles (natom : Nat) (bonds : List mbond) : List mangle :=
  (List.range natom).flatMap fun i =>
    let neib := neighbors bonds i
    (List.range neib.length).flatMap fun k =>
      (List.range neib.length).filterMap fun l =>
        if k < l then some ⟨neib.getD k 0, i, neib.getD l 0, "", "", []⟩ else none

/-- dihedral enumeration of mol.anglesdiheds: the triple loop over bond
indices k, l, j with its four shared-endpoint cases. -/
def enumDiheds (bonds : List mbond) : List mdihed :=
  let nbond := bonds.length
  (List.range nbond).flatMap fun k =>
    (List.range nbond).flatMap fun l =>
      if l = k then []
      else
        let bk := bonds.getD k default
        let bl := bonds.getD l default
        if bl.i = bk.i then
          (List.range nbond).filterMap fun j =>
            if j = k ∨ j = l then none
            else
              let bj := bonds.getD j default
              if bj.i = bk.j then some ⟨bl.j, bk.i, bk.j, bj.j, "", "", []⟩
              else if bj.j = bk.j then some ⟨bl.j, bk.i, bk.j, bj.i, "", "", []⟩
              else none
        else if bl.j = bk.i then
          (List.range nbond).filterMap fun j =>
            if j = k ∨ j = l then none
            else
              let bj := bonds.getD j default
              if bj.i = bk.j then some ⟨bl.i, bk.i, bk.j, bj.j, "", "", []⟩
              else if bj.j = bk.j then some ⟨bl.i, bk.i, bk.j, bj.i, "", "", []⟩
              else none
        else []

/-- improper enumeration of mol.anglesdiheds, run only when the
molecule's improper list is empty: every atom with exactly 3 bonded
neighbours yields dimpr(neib[0], neib[1], i, neib[2]). -/
def enumImpropers (natom : Nat) (bonds : List mbond) : List mdihed :=
  (List.range natom).filterMap fun i =>
    let neib := neighbors bonds i
    if neib.length = 3 then
      some ⟨neib.getD 0 0, neib.getD 1 0, i, neib.getD 2 0, "", "", []⟩
    else none

/-! ### mol.connectivity (fftool.py lines 827-857) -/

/-- the two candidate orderings of a two-type name, as built at
fftool.py lines 849-852. -/
def bondNames (ti tj : String) : List String :=
  [ti ++ "-" ++ tj, tj ++ "-" ++ ti]

/-- atom-type resolution loop of mol.connectivity: each atom takes the
type of every force-field atom record with a matching name (the last
match wins); an atom with no match is a fatal error. -/
def resolveTypes (ffatoms : List ffatom) (atoms : List matom) : Option (List matom) :=
  atoms.mapM fun at_ =>
    match (ffatoms.filter fun fa => fa.name = at_.name).getLast? with
    | none => none
    | some fa => some { at_ with type := fa.type }

open Classical in
/-- mol.connectivity: resolve atom types, then for every pair i < j and
every bond template whose name matches one of the two type orderings
and whose checkval accepts the pbc-aware distance, append bond(i, j).
The fatal unresolved-atom-type path is the none case. -/
noncomputable def connectivity (ffatoms : List ffatom) (ffbonds : List ffbond)
    (atoms : List matom) (box : Option cell) : Option (List matom × List mbond) :=
  match resolveTypes ffatoms atoms with
  | none => none
  | some ats =>
    let natom := ats.length
    some (ats, (List.range natom).flatMap fun i =>
      (List.range natom).flatMap fun j =>
        if i < j then
          let r := dist2atoms (atomPos ats i) (atomPos ats j) box
          let names := bondNames (atomType ats i) (atomType ats j)
          ffbonds.filterMap fun ffbd =>
            if ffbd.name ∈ names ∧ bondCheckval ffbd r then some (mkbond i j) else none
        else [])

/-! ### mol.setff (fftool.py lines 930-1110)

Each pass is modelled per term.  Warnings (tolerance failure on a bond,
duplicate templates) are prints in the source and do not change state;
fatal conditions (unmatched atom or bond) become none / Except.error.
When several templates match the same term, each match overwrites the
term's parameters in the source, so the last match wins. -/

/-- bond pass of mol.setff for one bond: both type orderings are tried
against the bond table; no match is fatal; a tolerance failure only
prints a warning, so the bond is kept either way. -/
def setffBond1 (atoms : List matom) (ffbonds : List ffbond) (bd : mbond) : Option mbond :=
  let names := bondNames (atomType atoms bd.i) (atomType atoms bd.j)
  match (ffbonds.filter fun t => t.name ∈ names).getLast? with
  | none => none
  | some t => some ⟨bd.i, bd.j, t.name, t.pot, t.par⟩

/-- bond pass of mol.setff over the bond list; any unmatched bond makes
the whole molecule fail (sys.exit after the loop). -/
def setffBonds (atoms : List matom) (ffbonds : List ffbond)
    (bonds : List mbond) : Except String (List mbond) :=
  match bonds.mapM (setffBond1 atoms ffbonds) with
  | some l => .ok l
  | none => .error "no parameters for bond"

open Classical in
/-- angle pass of mol.setff for one angle: a matched angle is kept only
when every matching template accepts the measured angle within
AngleTol; an unmatched angle or a tolerance failure removes the angle
(returns none). -/
noncomputable def setffAngle1 (atoms : List matom) (ffangles : List ffangle)
    (box : Option cell) (an : mangle) : Option mangle :=
  let ti := atomType atoms an.i
  let tj := atomType atoms an.j
  let tk := atomType atoms an.k
  let names := [ti ++ "-" ++ tj ++ "-" ++ tk, tk ++ "-" ++ tj ++ "-" ++ ti]
  let th := angle3atoms (atomPos atoms an.i) (atomPos atoms an.j) (atomPos atoms an.k) box
  let ms := ffangles.filter fun t => t.name ∈ names
  match ms.getLast? with
  | none => none
  | some t =>
    if ms.all fun u => angleCheckval u th then some ⟨an.i, an.j, an.k, t.name, t.pot, t.par⟩
    else none

open Classical in
/-- angle pass of mol.setff over the angle list (mark then remove). -/
noncomputable def setffAngles (atoms : List matom) (ffangles : List ffangle)
    (box : Option cell) (angles : List mangle) : List mangle :=
  angles.filterMap (setffAngle1 atoms ffangles box)

/-- dihedral pass of mol.setff for one dihedral: the name and its
reverse are tried; no tolerance validation; no match removes the term. -/
def setffDihed1 (atoms : List matom) (ffdiheds : List ffdihed) (dh : mdihed) : Option mdihed :=
  let ti := atomType atoms dh.i
  let tj := atomType atoms dh.j
  let tk := atomType atoms dh.k
  let tl := atomType atoms dh.l
  let names := [ti ++ "-" ++ tj ++ "-" ++ tk ++ "-" ++ tl,
                tl ++ "-" ++ tk ++ "-" ++ tj ++ "-" ++ ti]
  match (ffdiheds.filter fun t => t.name ∈ names).getLast? with
  | none => none
  | some t => some ⟨dh.i, dh.j, dh.k, dh.l, t.name, t.pot, t.par⟩

/-- dihedral pass of mol.setff over the dihedral list. -/
def setffDiheds (atoms : List matom) (ffdiheds : List ffdihed)
    (diheds : List mdihed) : List mdihed :=
  diheds.filterMap (setffDihed1 atoms ffdiheds)

/-- the six candidate orderings of an improper name (fftool.py lines
1053-1059), all fixing the central third position. -/
def imprNames (ti tj tk tl : String) : List String :=
  [ti ++ "-" ++ tj ++ "-" ++ tk ++ "-" ++ tl,
   tj ++ "-" ++ ti ++ "-" ++ tk ++ "-" ++ tl,
   ti ++ "-" ++ tl ++ "-" ++ tk ++ "-" ++ tj,
   tl ++ "-" ++ ti ++ "-" ++ tk ++ "-" ++ tj,
   tj ++ "-" ++ tl ++ "-" ++ tk ++ "-" ++ ti,
   tl ++ "-" ++ tj ++ "-" ++ tk ++ "-" ++ ti]

/-- in-place index reordering applied when an improper matches a
template (fftool.py lines 1066-1080): keyed to which of the six
candidate names matched and to which adjacent type labels coincide. -/
def imprSwap (ti tj tk tl : String) (names : List String) (nameff : String)
    (di : mdihed) : mdihed :=
  if nameff = names.getD 1 "" ∧ tj ≠ ti then { di with i := di.j, j := di.i }
  else if nameff = names.getD 2 "" ∧ tl ≠ tj then { di with j := di.l, l := di.j }
  else if nameff = names.getD 3 "" then
    let d2 := if tl ≠ tj then { di with j := di.l, l := di.j } else di
    if tj ≠ ti then { d2 with i := d2.j, j := d2.i } else d2
  else if nameff = names.getD 4 "" then
    let d2 := if tl ≠ ti then { di with i := di.l, l := di.i } else di
    if tj ≠ ti then { d2 with i := d2.j, j := d2.i } else d2
  else if nameff = names.getD 5 "" ∧ tl ≠ ti then { di with i := di.l, l := di.i }
  else di

/-- improper pass of mol.setff for one improper: every matching
template applies its reordering to the current indices and overwrites
the parameters; no match removes the term.  The candidate names and the
type labels in the swap conditions are computed once, before the
template loop, from the original atom order. -/
def setffImpr1 (atoms : List matom) (ffimprs : List ffdihed) (di : mdihed) : Option mdihed :=
  let ti := atomType atoms di.i
  let tj := atomType atoms di.j
  let tk := atomType atoms di.k
  let tl := atomType atoms di.l
  let names := imprNames ti tj tk tl
  let ms := ffimprs.filter fun t => t.name ∈ names
  match ms with
  | [] => none
  | _ =>
    some (ms.foldl
      (fun d t =>
        let d2 := imprSwap ti tj tk tl names t.name d
        ⟨d2.i, d2.j, d2.k, d2.l, t.name, t.pot, t.par⟩)
      di)

/-- improper matching pass of mol.setff over the improper list.  In
fftool_tri.py this is the complete improper phase: nothing runs after
it.  In fftool.py it is followed by removeDupImpr below. -/
def setffImpropers (atoms : List matom) (ffimprs : List ffdihed)
    (imprs : List mdihed) : List mdihed :=
  imprs.filterMap (setffImpr1 atoms ffimprs)

/-- the pair condition of the duplicate-improper scan (fftool.py lines
1097-1101): first two indices transposed, or first two indices equal. -/
def imprClash (x y : mdihed) : Bool :=
  (x.i = y.j ∧ x.j = y.i) ∨ (x.i = y.i ∧ x.j = y.j)

/-- duplicate-improper removal of fftool.py (lines 1094-1105, absent
from fftool_tri.py): mark every improper that clashes with an earlier
one over all index pairs of the original list, then remove the marked
ones, keeping the earlier occurrence. -/
def removeDupImpr (l : List mdihed) : List mdihed :=
  (List.range l.length).filterMap fun q =>
    if (List.range q).any fun p => imprClash (l.getD p default) (l.getD q default) then none
    else some (l.getD q default)

/-- the full improper phase of fftool.py's mol.setff: matching followed
by mirror-duplicate removal. -/
def setffImpropersFull (atoms : List matom) (ffimprs : List ffdihed)
    (imprs : List mdihed) : List mdihed :=
  removeDupImpr (setffImpropers atoms ffimprs imprs)

/-! ### vdw (class vdw, fftool.py lines 1313-1343) -/

/-- van der Waals cross term.  For non-lj potentials the source never
assigns self.par, modelled as none. -/
structure vdwT where
  i : String
  j : String
  ityp : ℤ
  jtyp : ℤ
  pot : String
  par : Option (List ℝ)

open Classical in
/-- vdw.__init__ on two global atom-type representatives. -/
noncomputable def vdw_init (iat jat : matom) (mix : String) : Except String vdwT :=
  if iat.pot ≠ jat.pot then .error "incompatible potential types"
  else if iat.par.length ≠ jat.par.length then .error "different lengths in parameter lists"
  else .ok ⟨iat.name, jat.name, iat.ityp, jat.ityp, iat.pot,
    if iat.pot = "lj" then
      some (if iat.name = jat.name then iat.par
        else [(if mix = "g" then Real.sqrt (iat.par.getD 0 0 * jat.par.getD 0 0)
               else (iat.par.getD 0 0 + jat.par.getD 0 0) / 2),
              Real.sqrt (iat.par.getD 1 0 * jat.par.getD 1 0)])
    else none⟩

/-! ### system type consolidation (system.__init__, build_type_list and
assign_type_index, fftool.py lines 1435-1490)

The two helpers are duck-typed in the source: they read a .name and
write an .ityp on atoms and on all four bonded-term kinds alike.  The
embedding takes the two accessors as explicit arguments. -/

/-- system.build_type_list: append each term whose name has not been
seen to the growing type table (first occurrence wins). -/
def build_type_list {α : Type} (nameOf : α → String) (term : List α)
    (termtype : List α) : List α :=
  term.foldl (fun tt a => if tt.any fun b => nameOf b = nameOf a then tt else tt ++ [a]) termtype

/-- the global type table for one kind of term: the scan over the
species in order, as in the first loop of system.__init__. -/
def buildTypes {α : Type} (nameOf : α → String) (specs : List (List α)) : List α :=
  specs.foldl (fun tt sp => build_type_list nameOf sp tt) []

/-- system.assign_type_index: give every term the index of the first
type-table entry carrying its name (the inner loop breaks at the first
match; a term whose name is absent is left untouched). -/
def assign_type_index {α : Type} (nameOf : α → String) (setI : α → ℤ → α)
    (termtype : List α) (term : List α) : List α :=
  term.map fun a =>
    match termtype.findIdx? (fun b => nameOf b = nameOf a) with
    | some i => setI a i
    | none => a

/-- the index-assignment phase of system.__init__ for one kind of term:
build the global table over all species, then assign indices in every
species. -/
def systemAssign {α : Type} (nameOf : α → String) (setI : α → ℤ → α)
    (specs : List (List α)) : List (List α) :=
  specs.map (assign_type_index nameOf setI (buildTypes nameOf specs))

/-! ### mol.zmat2cart (fftool.py lines 611-724)

A z-matrix record: distance r to reference atom ir, angle a at
reference ia, dihedral d over reference id (1-based references, as read
from .zmat files; degrees).  The first record uses none of the fields,
the second only r, the third r/ir/a/ia. -/

/-- one z-matrix record. -/
structure zrec where
  r : ℝ
  ir : Nat
  a : ℝ
  ia : Nat
  d : ℝ
  idr : Nat

instance : Inhabited zrec := ⟨⟨0, 0, 0, 0, 0, 0⟩⟩

open Classical in
/-- placement of the third atom (fftool.py lines 633-658): angle a to
atoms ir and ia in the xy plane, via the theta construction.  pir and
pia are the positions of the two reference atoms. -/
noncomputable def zthird (pir pia : vector) (r ang : ℝ) : vector :=
  let delx := pia.x - pir.x
  let dely := pia.y - pir.y
  let theta := Real.arccos (delx / Real.sqrt (delx * delx + dely * dely))
  let theta := if dely < 0 then 2 * Real.pi - theta else theta
  let ang2 := theta - ang
  ⟨pir.x + r * Real.cos ang2, pir.y + r * Real.sin ang2, 0⟩

/-- placement of atom n >= 3 (fftool.py lines 660-723): distance r from
B, angle ang at B towards C, dihedral dih over the plane through B, C
and D (radians). -/
noncomputable def zstep (vB vC vD : vector) (r ang dih : ℝ) : vector :=
  let vBC := vC - vB
  let vCD := vD - vC
  let sBC := vBC.vabs
  let bB := r * Real.cos ang
  let bA := r * Real.sin ang
  let aA := bA * Real.sin dih
  let ba := bA * Real.cos dih
  let vb := vC - vBC.scale ((sBC - bB) / sBC)
  let vn := (vCD.cross vBC).unit
  let vm := (vBC.cross vn).unit
  let va := vb + vm.scale ba
  let vA := va + vn.scale aA
  vA

open Classical in
/-- the cartesian position of atom i produced by mol.zmat2cart: atom 0
at the origin, atom 1 along +x, atom 2 in the xy plane, atoms i >= 3 by
the closed-form frame construction.  A reference that does not point to
an already-placed atom reads the unplaced default origin, as the
freshly-constructed Python atom objects hold coordinates 0.0. -/
noncomputable def zpos (z : List zrec) : Nat → vector
  | 0 => ⟨0, 0, 0⟩
  | 1 => ⟨(z.getD 1 default).r, 0, 0⟩
  | 2 =>
    let zr := z.getD 2 default
    let pir := if h : zr.ir - 1 < 2 then zpos z (zr.ir - 1) else ⟨0, 0, 0⟩
    let pia := if h : zr.ia - 1 < 2 then zpos z (zr.ia - 1) else ⟨0, 0, 0⟩
    zthird pir pia zr.r (zr.a * Real.pi / 180)
  | (n + 3) =>
    let zr := z.getD (n + 3) default
    let vB := if h : zr.ir - 1 < n + 3 then zpos z (zr.ir - 1) else ⟨0, 0, 0⟩
    let vC := if h : zr.ia - 1 < n + 3 then zpos z (zr.ia - 1) else ⟨0, 0, 0⟩
    let vD := if h : zr.idr - 1 < n + 3 then zpos z (zr.idr - 1) else ⟨0, 0, 0⟩
    zstep vB vC vD zr.r (zr.a * Real.pi / 180) (zr.d * Real.pi / 180)
termination_by i => i
decreasing_by all_goals exact h

/-- mol.zmat2cart: the list of all placed positions. -/
noncomputable def zmat2cart (z : List zrec) : List vector :=
  (List.range z.length).map (zpos z)

/-- Modelled from the spec: the source has no primitive that measures a
dihedral angle (zmat2cart only produces one), while the spec round-trip
law speaks of the recovered dihedral between the placed atoms.  This is
the standard signed dihedral of the chain p1-p2-p3-p4: the angle, in
degrees in (-180, 180], between the plane through p1 p2 p3 and the
plane through p2 p3 p4, measured about the p2-p3 axis with the usual
sign convention. -/
noncomputable def dihedral4 (p1 p2 p3 p4 : vector) : ℝ :=
  let b1 := p2 - p1
  let b2 := p3 - p2
  let b3 := p4 - p3
  let n1 := b1.cross b2
  let n2 := b2.cross b3
  Complex.arg ⟨n1.dot n2, (n1.cross n2).dot b2 / b2.vabs⟩ * 180 / Real.pi

/-! ### helper lemmas for the bonded-term enumerator -/

/-- counting filterMap images over a duplicate-free index list, when
the producing function stamps its index into the k field. -/
theorem countP_filterMap_key (f : Nat → Option mdihed) (key : Nat)
    (hf : ∀ n d, f n = some d → d.k = n) :
    ∀ l : List Nat, l.Nodup →
      ((l.filterMap f).countP fun d => d.k == key) =
        (if key ∈ l ∧ (f key).isSome then 1 else 0) := by
  intro l
  induction l with
  | nil => simp
  | cons a t ih =>
    intro hnd
    rw [List.nodup_cons] at hnd
    rcases hnd with ⟨hat, hnt⟩
    rcases ha : f a with _ | d
    · rw [List.filterMap_cons_none ha, ih hnt]
      by_cases hk : key = a
      · subst hk
        simp [ha, hat]
      · simp [List.mem_cons, hk]
    · rw [List.filterMap_cons_some ha, List.countP_cons]
      rw [ih hnt]
      have hd : d.k = a := hf a d ha
      by_cases hk : key = a
      · subst hk
        simp [ha, hat, hd]
      · have : (d.k == key) = false := by
          rw [hd]
          simp [Ne.symm hk]
        simp [List.mem_cons, hk, this]

/-- every improper produced by the enumerator from atom index n is
centred at n. -/
theorem enumImpropers_key (natom : Nat) (bonds : List mbond) (n : Nat) (d : mdihed)
    (h : (if (neighbors bonds n).length = 3 then
            some (⟨(neighbors bonds n).getD 0 0, (neighbors bonds n).getD 1 0, n,
                   (neighbors bonds n).getD 2 0, "", "", []⟩ : mdihed)
          else none) = some d) :
    d.k = n := by
  by_cases h3 : (neighbors bonds n).length = 3
  · rw [if_pos h3] at h
    cases h
    rfl
  · rw [if_neg h3] at h
    cases h

/-- C5: on the linear 4-atom chain with bonds (0,1), (1,2), (2,3) the
enumerator produces exactly 2 angles and exactly 1 dihedral; and for
every molecule (improper list empty, so the enumerator runs), every
atom i with exactly 3 bonded neighbours gives rise to exactly one
improper centred (third position) at i, whose outer atoms are the
neighbours in discovery order. -/
theorem bonded_term_enumeration_counts :
    (enumAngles 4 [mkbond 0 1, mkbond 1 2, mkbond 2 3]).length = 2 ∧
    (enumDiheds [mkbond 0 1, mkbond 1 2, mkbond 2 3]).length = 1 ∧
    (∀ (natom : Nat) (bonds : List mbond) (i : Nat), i < natom →
      (neighbors bonds i).length = 3 →
      ((enumImpropers natom bonds).countP fun d => d.k == i) = 1 ∧
        (⟨(neighbors bonds i).getD 0 0, (neighbors bonds i).getD 1 0, i,
          (neighbors bonds i).getD 2 0, "", "", []⟩ : mdihed) ∈ enumImpropers natom bonds) := by
  refine ⟨by decide, by decide, ?_⟩
  intro natom bonds i hi h3
  constructor
  · rw [enumImpropers, countP_filterMap_key _ i (enumImpropers_key natom bonds)
        (List.range natom) (List.nodup_range natom)]
    rw [if_pos]
    exact ⟨List.mem_range.mpr hi, by rw [if_pos h3]; rfl⟩
  · rw [enumImpropers, List.mem_filterMap]
    exact ⟨i, List.mem_range.mpr hi, by rw [if_pos h3]⟩

/-- C5 witness: the enumerator on the 4-atom star with centre 0
(bonds (0,1), (0,2), (0,3)) yields exactly one improper centred at 0. -/
theorem bonded_term_enumeration_counts_witness :
    ((enumImpropers 4 [mkbond 0 1, mkbond 0 2, mkbond 0 3]).countP fun d => d.k == 0) = 1 ∧
      (⟨1, 2, 0, 3, "", "", []⟩ : mdihed) ∈ enumImpropers 4 [mkbond 0 1, mkbond 0 2, mkbond 0 3] := by
  have h := (bonded_term_enumeration_counts.2.2) 4 [mkbond 0 1, mkbond 0 2, mkbond 0 3] 0
    (by decide) (by decide)
  exact h

/-! ### C6: improper canonicalization -/

/-- C6: when an improper whose atoms at (i, j, k, l) carry types
(A, B, C, D) with A different from B is matched by exactly the template
named B-A-C-D (the second of the six candidate orderings, which all fix
the central third position), the matcher swaps the first two atom
indices in place, so the stored improper becomes (j, i, k, l). -/
theorem improper_canonicalization (atoms : List matom) (ffimprs : List ffdihed)
    (di : mdihed) (t : ffdihed)
    (hAB : atomType atoms di.i ≠ atomType atoms di.j)
    (hfilter : (ffimprs.filter fun u => u.name ∈
        imprNames (atomType atoms di.i) (atomType atoms di.j)
          (atomType atoms di.k) (atomType atoms di.l)) = [t])
    (hname : t.name = atomType atoms di.j ++ "-" ++ atomType atoms di.i ++ "-" ++
        atomType atoms di.k ++ "-" ++ atomType atoms di.l) :
    setffImpr1 atoms ffimprs di =
      some ⟨di.j, di.i, di.k, di.l, t.name, t.pot, t.par⟩ := by
  rw [setffImpr1]
  simp only [hfilter]
  rw [List.foldl_cons, List.foldl_nil]
  rw [imprSwap]
  have hcond : t.name =
      (imprNames (atomType atoms di.i) (atomType atoms di.j)
        (atomType atoms di.k) (atomType atoms di.l)).getD 1 "" ∧
      atomType atoms di.j ≠ atomType atoms di.i := by
    refine ⟨?_, hAB.symm⟩
    rw [hname]
    rfl
  rw [if_pos hcond]

/-- C6 witness: four atoms typed A, B, C, D at indices 0..3, one
template named B-A-C-D; the improper (0,1,2,3) is stored as (1,0,2,3). -/
theorem improper_canonicalization_witness :
    setffImpr1
      [⟨"a1", "A", 0, "", [], 0, 0, 0, -1⟩, ⟨"a2", "B", 0, "", [], 0, 0, 0, -1⟩,
       ⟨"a3", "C", 0, "", [], 0, 0, 0, -1⟩, ⟨"a4", "D", 0, "", [], 0, 0, 0, -1⟩]
      [⟨"B", "A", "C", "D", "imp", []⟩]
      ⟨0, 1, 2, 3, "", "", []⟩ =
      some ⟨1, 0, 2, 3, "B-A-C-D", "imp", []⟩ := by
  have h := improper_canonicalization
    [⟨"a1", "A", 0, "", [], 0, 0, 0, -1⟩, ⟨"a2", "B", 0, "", [], 0, 0, 0, -1⟩,
     ⟨"a3", "C", 0, "", [], 0, 0, 0, -1⟩, ⟨"a4", "D", 0, "", [], 0, 0, 0, -1⟩]
    [⟨"B", "A", "C", "D", "imp", []⟩]
    ⟨0, 1, 2, 3, "", "", []⟩ ⟨"B", "A", "C", "D", "imp", []⟩
    (by simp [atomType]) (by simp [atomType, imprNames, ffdihed.name]) (by simp [atomType, ffdihed.name])
  exact h

/-! ### C7: duplicate-improper removal -/

/-- elements of removeDupImpr are elements of the input list. -/
theorem removeDupImpr_subset (l : List mdihed) :
    ∀ x ∈ removeDupImpr l, x ∈ l := by
  intro x hx
  rw [removeDupImpr, List.mem_filterMap] at hx
  rcases hx with ⟨q, hq, hsome⟩
  rw [List.mem_range] at hq
  by_cases hc : (List.range q).any fun p => imprClash (l.getD p default) (l.getD q default)
  · rw [if_pos hc] at hsome
    cases hsome
  · rw [if_neg hc] at hsome
    cases hsome
    rw [List.getD_eq_getElem l default hq]
    exact List.getElem_mem hq

/-- C7, amended to fftool.py: the duplicate-improper pass that follows
improper matching in fftool.py's mol.setff (a pass that fftool_tri.py
does not have) removes every later improper whose first two indices
equal or transpose an earlier one's, keeping the earlier occurrence:
its output is drawn from the input, keeps every improper not clashing
with an earlier one (in particular the first of any mirror pair), and
contains no two impropers that agree on (k, l) and have (i, j)
transposed. -/
theorem improper_mirror_dedup (l : List mdihed) :
    (∀ x ∈ removeDupImpr l, x ∈ l) ∧
    (∀ q, q < l.length → (∀ p, p < q → ¬ imprClash (l.getD p default) (l.getD q default)) →
      l.getD q default ∈ removeDupImpr l) ∧
    List.Pairwise
      (fun x y => ¬(x.k = y.k ∧ x.l = y.l ∧ x.i = y.j ∧ x.j = y.i))
      (removeDupImpr l) := by
  refine ⟨removeDupImpr_subset l, ?_, ?_⟩
  · intro q hq hnone
    rw [removeDupImpr, List.mem_filterMap]
    refine ⟨q, List.mem_range.mpr hq, ?_⟩
    rw [if_neg]
    simp only [List.any_eq_true, List.mem_range, not_exists, not_and]
    intro p hp
    exact fun hcl => (hnone p hp) (by simpa using hcl)
  · rw [removeDupImpr]
    rw [List.pairwise_filterMap]
    have hrange : List.Pairwise (fun p q => p < q) (List.range l.length) :=
      List.pairwise_lt_range l.length
    refine List.Pairwise.imp_of_mem ?_ hrange
    intro p q hp hq hlt
    intro x hx y hy
    by_cases hc : (List.range q).any fun p2 => imprClash (l.getD p2 default) (l.getD q default)
    · rw [if_pos hc] at hy
      cases hy
    · rw [if_neg hc] at hy
      by_cases hc2 : (List.range p).any fun p2 => imprClash (l.getD p2 default) (l.getD p default)
      · rw [if_pos hc2] at hx
        cases hx
      · rw [if_neg hc2] at hx
        cases hx
        cases hy
        simp only [List.any_eq_true, List.mem_range, not_exists, not_and] at hc
        intro hcond
        apply hc p hlt
        rw [imprClash]
        simp only [decide_eq_true_eq]
        exact Or.inl ⟨hcond.2.2.1, hcond.2.2.2⟩

/-- C7 witness: the pass keeps the first of a concrete mirror pair and
drops the second. -/
theorem improper_mirror_dedup_witness :
    (⟨0, 1, 2, 3, "", "", []⟩ : mdihed) ∈
      removeDupImpr [⟨0, 1, 2, 3, "", "", []⟩, ⟨1, 0, 2, 3, "", "", []⟩] := by
  have h := (improper_mirror_dedup [⟨0, 1, 2, 3, "", "", []⟩, ⟨1, 0, 2, 3, "", "", []⟩]).2.1
    0 (by decide)
    (by intro p hp; cases hp)
  exact h

/-- C7 counterexample: in fftool_tri.py the improper phase of mol.setff
is setffImpropers alone (no duplicate-removal pass follows it), and on
four atoms of one type A, the template A-A-A-A and the two mirror-image
impropers (0,1,2,3) and (1,0,2,3), both survive matching: the final
improper list of that mol.setff still contains a mirror pair, so the
claim is false for fftool_tri.py's mol.setff. -/
theorem improper_mirror_dedup_counterexample :
    (setffImpropers
        [⟨"a1", "A", 0, "", [], 0, 0, 0, -1⟩, ⟨"a2", "A", 0, "", [], 0, 0, 0, -1⟩,
         ⟨"a3", "A", 0, "", [], 0, 0, 0, -1⟩, ⟨"a4", "A", 0, "", [], 0, 0, 0, -1⟩]
        [⟨"A", "A", "A", "A", "imp", []⟩]
        [⟨0, 1, 2, 3, "", "", []⟩, ⟨1, 0, 2, 3, "", "", []⟩]).length = 2 ∧
    ∃ x y, x ∈ (setffImpropers
        [⟨"a1", "A", 0, "", [], 0, 0, 0, -1⟩, ⟨"a2", "A", 0, "", [], 0, 0, 0, -1⟩,
         ⟨"a3", "A", 0, "", [], 0, 0, 0, -1⟩, ⟨"a4", "A", 0, "", [], 0, 0, 0, -1⟩]
        [⟨"A", "A", "A", "A", "imp", []⟩]
        [⟨0, 1, 2, 3, "", "", []⟩, ⟨1, 0, 2, 3, "", "", []⟩]) ∧
      y ∈ (setffImpropers
        [⟨"a1", "A", 0, "", [], 0, 0, 0, -1⟩, ⟨"a2", "A", 0, "", [], 0, 0, 0, -1⟩,
         ⟨"a3", "A", 0, "", [], 0, 0, 0, -1⟩, ⟨"a4", "A", 0, "", [], 0, 0, 0, -1⟩]
        [⟨"A", "A", "A", "A", "imp", []⟩]
        [⟨0, 1, 2, 3, "", "", []⟩, ⟨1, 0, 2, 3, "", "", []⟩]) ∧
      x.k = y.k ∧ x.l = y.l ∧ x.i = y.j ∧ x.j = y.i ∧ x ≠ y := by
  have hout : setffImpropers
      [⟨"a1", "A", 0, "", [], 0, 0, 0, -1⟩, ⟨"a2", "A", 0, "", [], 0, 0, 0, -1⟩,
       ⟨"a3", "A", 0, "", [], 0, 0, 0, -1⟩, ⟨"a4", "A", 0, "", [], 0, 0, 0, -1⟩]
      [⟨"A", "A", "A", "A", "imp", []⟩]
      [⟨0, 1, 2, 3, "", "", []⟩, ⟨1, 0, 2, 3, "", "", []⟩] =
      [⟨0, 1, 2, 3, "A-A-A-A", "imp", []⟩, ⟨1, 0, 2, 3, "A-A-A-A", "imp", []⟩] := by
    simp [setffImpropers, setffImpr1, imprNames, imprSwap, atomType, ffdihed.name]
  rw [hout]
  refine ⟨rfl, ⟨0, 1, 2, 3, "A-A-A-A", "imp", []⟩, ⟨1, 0, 2, 3, "A-A-A-A", "imp", []⟩,
    by simp, by simp, rfl, rfl, rfl, rfl, ?_⟩
  intro h
  cases h

/-! ### C3: Lennard-Jones mixing -/

/-- C3: for a pair of lj atom types with equal parameter-list lengths
and different names, vdw.__init__ always mixes the well depth as
sqrt(eps_i * eps_j) and mixes the size geometrically for mix = g and
arithmetically otherwise; for equal names it reuses the native
parameter list; and on the concrete pair (sigma, eps) = (3.0, 0.1) and
(4.0, 0.4) this yields sigma = sqrt 12, eps = 0.2 geometrically and
sigma = 3.5, eps = 0.2 arithmetically. -/
theorem lj_mixing_rule :
    (∀ (iat jat : matom) (mix : String) (v : vdwT), iat.pot = "lj" →
      iat.name ≠ jat.name → vdw_init iat jat mix = .ok v →
      ∃ pl, v.par = some pl ∧
        pl.getD 1 0 = Real.sqrt (iat.par.getD 1 0 * jat.par.getD 1 0) ∧
        pl.getD 0 0 = (if mix = "g" then Real.sqrt (iat.par.getD 0 0 * jat.par.getD 0 0)
                       else (iat.par.getD 0 0 + jat.par.getD 0 0) / 2)) ∧
    (∀ (iat jat : matom) (mix : String) (v : vdwT), iat.pot = "lj" →
      iat.name = jat.name → vdw_init iat jat mix = .ok v → v.par = some iat.par) ∧
    (vdw_init ⟨"A", "A", 0, "lj", [3, 0.1], 0, 0, 0, -1⟩
        ⟨"B", "B", 0, "lj", [4, 0.4], 0, 0, 0, -1⟩ "g" =
      .ok ⟨"A", "B", -1, -1, "lj", some [Real.sqrt 12, 0.2]⟩) ∧
    (vdw_init ⟨"A", "A", 0, "lj", [3, 0.1], 0, 0, 0, -1⟩
        ⟨"B", "B", 0, "lj", [4, 0.4], 0, 0, 0, -1⟩ "a" =
      .ok ⟨"A", "B", -1, -1, "lj", some [3.5, 0.2]⟩) := by
  have hsqrt : Real.sqrt (0.1 * 0.4) = 0.2 := by
    rw [show (0.1 * 0.4 : ℝ) = 0.2 ^ 2 by norm_num, Real.sqrt_sq (by norm_num)]
  refine ⟨?_, ?_, ?_, ?_⟩
  · intro iat jat mix v hlj hne hok
    rw [vdw_init] at hok
    by_cases hp : iat.pot ≠ jat.pot
    · rw [if_pos hp] at hok; cases hok
    · rw [if_neg hp] at hok
      by_cases hl : iat.par.length ≠ jat.par.length
      · rw [if_pos hl] at hok; cases hok
      · rw [if_neg hl] at hok
        cases hok
        refine ⟨[(if mix = "g" then Real.sqrt (iat.par.getD 0 0 * jat.par.getD 0 0)
                  else (iat.par.getD 0 0 + jat.par.getD 0 0) / 2),
                 Real.sqrt (iat.par.getD 1 0 * jat.par.getD 1 0)], ?_, rfl, rfl⟩
        show (if iat.pot = "lj" then
                some (if iat.name = jat.name then iat.par
                  else [(if mix = "g" then Real.sqrt (iat.par.getD 0 0 * jat.par.getD 0 0)
                         else (iat.par.getD 0 0 + jat.par.getD 0 0) / 2),
                        Real.sqrt (iat.par.getD 1 0 * jat.par.getD 1 0)])
              else none) = _
        rw [if_pos hlj, if_neg hne]
  · intro iat jat mix v hlj heq hok
    rw [vdw_init] at hok
    by_cases hp : iat.pot ≠ jat.pot
    · rw [if_pos hp] at hok; cases hok
    · rw [if_neg hp] at hok
      by_cases hl : iat.par.length ≠ jat.par.length
      · rw [if_pos hl] at hok; cases hok
      · rw [if_neg hl] at hok
        cases hok
        rw [if_pos hlj, if_pos heq]
  · simp [vdw_init]
    norm_num [hsqrt]
    refine ⟨?_, ?_⟩
    · rw [← Real.sqrt_mul (by norm_num : (0:ℝ) ≤ 3)]
      norm_num
    · rw [show (25:ℝ) = 5 ^ 2 by norm_num, Real.sqrt_sq (by norm_num)]
      norm_num
  · simp [vdw_init]
    norm_num [hsqrt]
    rw [show (25:ℝ) = 5 ^ 2 by norm_num, Real.sqrt_sq (by norm_num)]
    norm_num

/-- C3 witness: the general lj branch applied to the concrete pair
under geometric mixing. -/
theorem lj_mixing_rule_witness :
    ∃ pl, (⟨"A", "B", -1, -1, "lj", some [Real.sqrt 12, 0.2]⟩ : vdwT).par = some pl ∧
      pl.getD 1 0 = Real.sqrt ((([3, 0.1] : List ℝ).getD 1 0) * (([4, 0.4] : List ℝ).getD 1 0)) ∧
      pl.getD 0 0 = (if "g" = "g" then
          Real.sqrt ((([3, 0.1] : List ℝ).getD 0 0) * (([4, 0.4] : List ℝ).getD 0 0))
        else ((([3, 0.1] : List ℝ).getD 0 0) + (([4, 0.4] : List ℝ).getD 0 0)) / 2) := by
  exact lj_mixing_rule.1 ⟨"A", "A", 0, "lj", [3, 0.1], 0, 0, 0, -1⟩
    ⟨"B", "B", 0, "lj", [4, 0.4], 0, 0, 0, -1⟩ "g"
    ⟨"A", "B", -1, -1, "lj", some [Real.sqrt 12, 0.2]⟩ rfl (by simp) lj_mixing_rule.2.2.1

/-! ### C10: global type-index consistency -/

/-- build_type_list never drops anything already in the table. -/
theorem build_type_list_mem_init {α : Type} (nameOf : α → String) :
    ∀ (term tt : List α), ∀ b ∈ tt, b ∈ build_type_list nameOf term tt := by
  intro term
  induction term with
  | nil => intro tt b hb; exact hb
  | cons a t ih =>
    intro tt b hb
    simp only [build_type_list, List.foldl_cons]
    simp only [build_type_list] at ih
    by_cases h : tt.any fun b2 => nameOf b2 = nameOf a
    · rw [if_pos h]
      exact ih tt b hb
    · rw [if_neg h]
      exact ih (tt ++ [a]) b (List.mem_append_left _ hb)

/-- every scanned term leaves its name in the table. -/
theorem build_type_list_covers {α : Type} (nameOf : α → String) :
    ∀ (term tt : List α), ∀ a ∈ term,
      ∃ b ∈ build_type_list nameOf term tt, nameOf b = nameOf a := by
  intro term
  induction term with
  | nil => intro tt a ha; cases ha
  | cons a0 t ih =>
    intro tt a ha
    simp only [build_type_list, List.foldl_cons]
    rw [List.mem_cons] at ha
    have hstep : ∀ tt2 : List α, (∃ b ∈ tt2, nameOf b = nameOf a) →
        ∃ b ∈ t.foldl
          (fun tt3 a2 => if tt3.any fun b2 => nameOf b2 = nameOf a2 then tt3 else tt3 ++ [a2]) tt2,
          nameOf b = nameOf a := by
      intro tt2 hex
      rcases hex with ⟨b, hb, hbn⟩
      exact ⟨b, build_type_list_mem_init nameOf t tt2 b hb, hbn⟩
    rcases ha with ha | ha
    · subst ha
      by_cases h : tt.any fun b2 => nameOf b2 = nameOf a
      · rw [if_pos h]
        rw [List.any_eq_true] at h
        rcases h with ⟨b, hb, hbn⟩
        exact hstep tt ⟨b, hb, by simpa using hbn⟩
      · rw [if_neg h]
        exact hstep (tt ++ [a]) ⟨a, List.mem_append_right _ (List.mem_singleton.mpr rfl), rfl⟩
    · by_cases h : tt.any fun b2 => nameOf b2 = nameOf a0
      · rw [if_pos h]
        exact ih tt a ha
      · rw [if_neg h]
        exact ih (tt ++ [a0]) a ha

/-- the species fold never drops anything already in the table. -/
theorem buildTypes_fold_mem_init {α : Type} (nameOf : α → String) :
    ∀ (specs : List (List α)) (tt : List α), ∀ b ∈ tt,
      b ∈ specs.foldl (fun tt2 sp => build_type_list nameOf sp tt2) tt := by
  intro specs
  induction specs with
  | nil => intro tt b hb; exact hb
  | cons sp t ih =>
    intro tt b hb
    rw [List.foldl_cons]
    exact ih _ b (build_type_list_mem_init nameOf sp tt b hb)

/-- every term of every species has its name in the global table. -/
theorem buildTypes_covers {α : Type} (nameOf : α → String) :
    ∀ (specs : List (List α)) (tt : List α), ∀ sp ∈ specs, ∀ a ∈ sp,
      ∃ b ∈ specs.foldl (fun tt2 sp2 => build_type_list nameOf sp2 tt2) tt,
        nameOf b = nameOf a := by
  intro specs
  induction specs with
  | nil => intro tt sp hsp; cases hsp
  | cons sp0 t ih =>
    intro tt sp hsp a ha
    rw [List.foldl_cons]
    rw [List.mem_cons] at hsp
    rcases hsp with hsp | hsp
    · subst hsp
      rcases build_type_list_covers nameOf sp tt a ha with ⟨b, hb, hbn⟩
      exact ⟨b, buildTypes_fold_mem_init nameOf t _ b hb, hbn⟩
    · exact ih _ sp hsp a ha

/-- C10: after the index-assignment phase of system.__init__, every
atom or bonded term of every species carries a nonnegative type index
equal to the position of the first-registered entry with its name in
the global type table (registration order is the scan order over
species, first occurrence wins), and two terms of the same kind carry
equal indices exactly when they carry equal names.  The two duck-typed
accessors of the source are taken as arguments, constrained to read
back what they write. -/
theorem system_type_index_consistency {α : Type} (nameOf : α → String)
    (setI : α → ℤ → α) (itypOf : α → ℤ)
    (hname : ∀ a n, nameOf (setI a n) = nameOf a)
    (hget : ∀ a n, itypOf (setI a n) = n)
    (specs : List (List α)) :
    (∀ l ∈ systemAssign nameOf setI specs, ∀ x ∈ l,
      0 ≤ itypOf x ∧
        (buildTypes nameOf specs).findIdx? (fun b => nameOf b = nameOf x) =
          some (itypOf x).toNat) ∧
    (∀ l1 ∈ systemAssign nameOf setI specs, ∀ l2 ∈ systemAssign nameOf setI specs,
      ∀ x ∈ l1, ∀ y ∈ l2, (itypOf x = itypOf y ↔ nameOf x = nameOf y)) := by
  have hmem : ∀ l ∈ systemAssign nameOf setI specs, ∀ x ∈ l,
      ∃ (a : α) (i : Nat), (buildTypes nameOf specs).findIdx?
          (fun b => nameOf b = nameOf a) = some i ∧ x = setI a i := by
    intro l hl x hx
    rw [systemAssign, List.mem_map] at hl
    rcases hl with ⟨sp, hsp, rfl⟩
    rw [assign_type_index, List.mem_map] at hx
    rcases hx with ⟨a, ha, rfl⟩
    rcases hfi : (buildTypes nameOf specs).findIdx? fun b => nameOf b = nameOf a with _ | i
    · exfalso
      rw [List.findIdx?_eq_none_iff] at hfi
      rcases buildTypes_covers nameOf specs [] sp hsp a ha with ⟨b, hb, hbn⟩
      have := hfi b hb
      rw [hbn] at this
      simp at this
    · exact ⟨a, i, hfi, rfl⟩
  have hidx : ∀ l ∈ systemAssign nameOf setI specs, ∀ x ∈ l,
      0 ≤ itypOf x ∧
        (buildTypes nameOf specs).findIdx? (fun b => nameOf b = nameOf x) =
          some (itypOf x).toNat := by
    intro l hl x hx
    rcases hmem l hl x hx with ⟨a, i, hfi, rfl⟩
    rw [hget]
    refine ⟨Int.ofNat_nonneg i, ?_⟩
    have hpred : (fun b => decide (nameOf b = nameOf (setI a i))) =
        fun b => decide (nameOf b = nameOf a) := by
      funext b
      rw [hname]
    rw [hpred]
    simpa using hfi
  refine ⟨hidx, ?_⟩
  intro l1 hl1 l2 hl2 x hx y hy
  rcases hidx l1 hl1 x hx with ⟨hx0, hxf⟩
  rcases hidx l2 hl2 y hy with ⟨hy0, hyf⟩
  constructor
  · intro heq
    rw [heq] at hxf
    rw [List.findIdx?_eq_some_iff_getElem] at hxf hyf
    rcases hxf with ⟨hlen, hpx, _⟩
    rcases hyf with ⟨hlen2, hpy, _⟩
    rw [decide_eq_true_eq] at hpx hpy
    rw [← hpx, hpy]
  · intro heq
    rw [heq] at hxf
    rw [hxf] at hyf
    have := Option.some.inj hyf
    omega

/-- C10 witness: two species over pairs (name, ityp), species one
holding N and species two holding N and M; the assigned entry (M, 1) of
species two carries the index of M in the global table. -/
theorem system_type_index_consistency_witness :
    0 ≤ (("M", (1:ℤ))).2 ∧
      (buildTypes (fun p : String × ℤ => p.1)
          [[("N", -1)], [("N", -1), ("M", -1)]]).findIdx?
        (fun b => b.1 = (("M", (1:ℤ))).1) = some ((("M", (1:ℤ))).2.toNat) := by
  have h := (system_type_index_consistency (fun p : String × ℤ => p.1)
    (fun p n => (p.1, n)) (fun p => p.2)
    (fun a n => rfl) (fun a n => rfl)
    [[("N", -1)], [("N", -1), ("M", -1)]]).1
    [("N", (0:ℤ)), ("M", 1)] (by decide) ("M", 1) (by decide)
  exact h

/-! ### C1: validation asymmetry between bonds and angles -/

/-- the bond pass never changes the atom indices of a bond. -/
theorem setffBond1_indices (atoms : List matom) (ffbonds : List ffbond)
    (bd bd2 : mbond) (h : setffBond1 atoms ffbonds bd = some bd2) :
    bd2.i = bd.i ∧ bd2.j = bd.j := by
  rw [setffBond1] at h
  rcases hlast : (ffbonds.filter fun t =>
      t.name ∈ bondNames (atomType atoms bd.i) (atomType atoms bd.j)).getLast? with _ | t
  · rw [hlast] at h
    cases h
  · rw [hlast] at h
    cases h
    exact ⟨rfl, rfl⟩

/-- mapM over Option preserves the projected list when the function
preserves the projection. -/
theorem mapM_option_map_eq {β γ : Type} (f : β → Option β) (g : β → γ)
    (hf : ∀ b b2, f b = some b2 → g b2 = g b) :
    ∀ (l out : List β), l.mapM f = some out → out.map g = l.map g := by
  intro l
  induction l with
  | nil =>
    intro out h
    simp only [List.mapM_nil, pure, Option.some.injEq] at h
    subst h
    rfl
  | cons b t ih =>
    intro out h
    rw [List.mapM_cons] at h
    rcases hb : f b with _ | b2
    · rw [hb] at h
      cases h
    · rw [hb] at h
      rcases ht : t.mapM f with _ | ts
      · rw [ht] at h
        cases h
      · rw [ht] at h
        simp only [Option.bind_eq_bind, Option.some_bind, Option.pure_def,
          Option.some.injEq] at h
        subst h
        simp only [List.map_cons, hf b b2 hb, ih ts ht]

/-- the angle pass preserves indices and certifies every matching
template's tolerance check on the kept angle. -/
theorem setffAngle1_some_inv (atoms : List matom) (ffangles : List ffangle)
    (box : Option cell) (an x : mangle)
    (h : setffAngle1 atoms ffangles box an = some x) :
    x.i = an.i ∧ x.j = an.j ∧ x.k = an.k ∧
      ∀ t ∈ (ffangles.filter fun t => t.name ∈
          [atomType atoms an.i ++ "-" ++ atomType atoms an.j ++ "-" ++ atomType atoms an.k,
           atomType atoms an.k ++ "-" ++ atomType atoms an.j ++ "-" ++ atomType atoms an.i]),
        angleCheckval t (angle3atoms (atomPos atoms an.i) (atomPos atoms an.j)
          (atomPos atoms an.k) box) = true := by
  simp only [setffAngle1] at h
  split at h
  · cases h
  · split at h
    · rename_i hcond
      cases h
      rw [List.all_eq_true] at hcond
      exact ⟨rfl, rfl, rfl, hcond⟩
    · cases h

/-- C1: the geometry-validation policy of mol.setff is asymmetric.  A
bond whose matched template fails the BondTol check is kept: whenever
the bond pass succeeds it returns the bonds with unchanged atom-index
pairs, and in particular a matched bond with a failing tolerance check
is still matched and kept with its indices.  An angle matched by at
least one template that fails the AngleTol check on the measured angle
is removed: no angle with its atom indices survives the angle pass. -/
theorem bond_angle_validation_asymmetry :
    (∀ (atoms : List matom) (ffbonds : List ffbond) (bonds out : List mbond),
      setffBonds atoms ffbonds bonds = .ok out →
      out.map (fun bd => (bd.i, bd.j)) = bonds.map (fun bd => (bd.i, bd.j))) ∧
    (∀ (atoms : List matom) (ffbonds : List ffbond) (bd : mbond) (t : ffbond),
      t ∈ (ffbonds.filter fun u => u.name ∈
        bondNames (atomType atoms bd.i) (atomType atoms bd.j)) →
      bondCheckval t (dist2atoms (atomPos atoms bd.i) (atomPos atoms bd.j) none) = false →
      ∃ bd2, setffBond1 atoms ffbonds bd = some bd2 ∧ bd2.i = bd.i ∧ bd2.j = bd.j) ∧
    (∀ (atoms : List matom) (ffangles : List ffangle) (box : Option cell)
        (angles : List mangle) (an : mangle) (t : ffangle),
      an ∈ angles →
      t ∈ (ffangles.filter fun u => u.name ∈
        [atomType atoms an.i ++ "-" ++ atomType atoms an.j ++ "-" ++ atomType atoms an.k,
         atomType atoms an.k ++ "-" ++ atomType atoms an.j ++ "-" ++ atomType atoms an.i]) →
      angleCheckval t (angle3atoms (atomPos atoms an.i) (atomPos atoms an.j)
        (atomPos atoms an.k) box) = false →
      ∀ x ∈ setffAngles atoms ffangles box angles,
        ¬(x.i = an.i ∧ x.j = an.j ∧ x.k = an.k)) := by
  refine ⟨?_, ?_, ?_⟩
  · intro atoms ffbonds bonds out h
    rw [setffBonds] at h
    rcases hm : bonds.mapM (setffBond1 atoms ffbonds) with _ | l
    · rw [hm] at h
      cases h
    · rw [hm] at h
      cases h
      exact mapM_option_map_eq (setffBond1 atoms ffbonds) (fun bd => (bd.i, bd.j))
        (fun b b2 hb => by
          rcases setffBond1_indices atoms ffbonds b b2 hb with ⟨h1, h2⟩
          simp [h1, h2]) bonds out hm
  · intro atoms ffbonds bd t ht hfail
    rw [setffBond1]
    rcases hlast : (ffbonds.filter fun u =>
        u.name ∈ bondNames (atomType atoms bd.i) (atomType atoms bd.j)).getLast? with _ | u
    · rw [List.getLast?_eq_none_iff] at hlast
      rw [hlast] at ht
      cases ht
    · refine ⟨⟨bd.i, bd.j, u.name, u.pot, u.par⟩, ?_, rfl, rfl⟩
      show (match (ffbonds.filter fun t =>
          t.name ∈ bondNames (atomType atoms bd.i) (atomType atoms bd.j)).getLast? with
        | none => none
        | some t => some (⟨bd.i, bd.j, t.name, t.pot, t.par⟩ : mbond)) = _
      rw [hlast]
  · intro atoms ffangles box angles an t han ht hfail x hx
    intro hidx
    rw [setffAngles, List.mem_filterMap] at hx
    rcases hx with ⟨an2, _, hsome⟩
    rcases setffAngle1_some_inv atoms ffangles box an2 x hsome with ⟨h1, h2, h3, hall⟩
    have hi : an2.i = an.i := by rw [← h1, hidx.1]
    have hj : an2.j = an.j := by rw [← h2, hidx.2.1]
    have hk : an2.k = an.k := by rw [← h3, hidx.2.2]
    rw [hi, hj, hk] at hall
    have := hall t ht
    rw [hfail] at this
    cases this

/-- C1 witness: a C-C bond measured at 2.0 A against an equilibrium of
1.0 A (tolerance fails) is kept by the bond pass, while a C-O-C angle
measured at 90 degrees against an equilibrium of 60 degrees (tolerance
fails) is removed by the angle pass. -/
theorem bond_angle_validation_asymmetry_witness :
    (∃ bd2, setffBond1
        [⟨"C1", "C", 0, "", [], 0, 0, 0, -1⟩, ⟨"C2", "C", 0, "", [], 2, 0, 0, -1⟩]
        [⟨"C", "C", "harm", [1], 1⟩] (mkbond 0 1) = some bd2 ∧
      bd2.i = (mkbond 0 1).i ∧ bd2.j = (mkbond 0 1).j) ∧
    (∀ x ∈ setffAngles
        [⟨"C1", "C", 0, "", [], 1, 0, 0, -1⟩, ⟨"O1", "O", 0, "", [], 0, 0, 0, -1⟩,
         ⟨"C2", "C", 0, "", [], 0, 1, 0, -1⟩]
        [⟨"C", "O", "C", "harm", [60], 60⟩] none [⟨0, 1, 2, "", "", []⟩],
      ¬(x.i = (⟨0, 1, 2, "", "", []⟩ : mangle).i ∧ x.j = (⟨0, 1, 2, "", "", []⟩ : mangle).j ∧
        x.k = (⟨0, 1, 2, "", "", []⟩ : mangle).k)) := by
  have hs4 : Real.sqrt 4 = 2 := by
    rw [show (4:ℝ) = 2 ^ 2 by norm_num, Real.sqrt_sq (by norm_num)]
  constructor
  · refine bond_angle_validation_asymmetry.2.1
      [⟨"C1", "C", 0, "", [], 0, 0, 0, -1⟩, ⟨"C2", "C", 0, "", [], 2, 0, 0, -1⟩]
      [⟨"C", "C", "harm", [1], 1⟩] (mkbond 0 1) ⟨"C", "C", "harm", [1], 1⟩ ?_ ?_
    · simp [List.mem_filter, bondNames, ffbond.name, atomType, mkbond]
    · have hd : dist2atoms
          (atomPos [⟨"C1", "C", 0, "", [], 0, 0, 0, -1⟩,
            ⟨"C2", "C", 0, "", [], 2, 0, 0, -1⟩] (mkbond 0 1).i)
          (atomPos [⟨"C1", "C", 0, "", [], 0, 0, 0, -1⟩,
            ⟨"C2", "C", 0, "", [], 2, 0, 0, -1⟩] (mkbond 0 1).j) none = 2 := by
        simp [dist2atoms, atomPos, matom.pos, mkbond, hs4]
      rw [hd, bondCheckval]
      rw [if_neg]
      rw [BondTol]
      norm_num
  · refine bond_angle_validation_asymmetry.2.2
      [⟨"C1", "C", 0, "", [], 1, 0, 0, -1⟩, ⟨"O1", "O", 0, "", [], 0, 0, 0, -1⟩,
       ⟨"C2", "C", 0, "", [], 0, 1, 0, -1⟩]
      [⟨"C", "O", "C", "harm", [60], 60⟩] none [⟨0, 1, 2, "", "", []⟩]
      ⟨0, 1, 2, "", "", []⟩ ⟨"C", "O", "C", "harm", [60], 60⟩ (by simp) ?_ ?_
    · simp [List.mem_filter, ffangle.name, atomType]
    · have hth : angle3atoms
          (atomPos [⟨"C1", "C", 0, "", [], 1, 0, 0, -1⟩, ⟨"O1", "O", 0, "", [], 0, 0, 0, -1⟩,
            ⟨"C2", "C", 0, "", [], 0, 1, 0, -1⟩] (⟨0, 1, 2, "", "", []⟩ : mangle).i)
          (atomPos [⟨"C1", "C", 0, "", [], 1, 0, 0, -1⟩, ⟨"O1", "O", 0, "", [], 0, 0, 0, -1⟩,
            ⟨"C2", "C", 0, "", [], 0, 1, 0, -1⟩] (⟨0, 1, 2, "", "", []⟩ : mangle).j)
          (atomPos [⟨"C1", "C", 0, "", [], 1, 0, 0, -1⟩, ⟨"O1", "O", 0, "", [], 0, 0, 0, -1⟩,
            ⟨"C2", "C", 0, "", [], 0, 1, 0, -1⟩] (⟨0, 1, 2, "", "", []⟩ : mangle).k) none = 90 := by
        simp [angle3atoms, atomPos, matom.pos, vector.dot, vector.vabs]
        field_simp
        ring
      rw [hth, angleCheckval]
      rw [if_neg]
      rw [AngleTol]
      norm_num

/-! ### C4: geometric connectivity inference -/

/-- bondCheckval as a proposition. -/
theorem bondCheckval_eq_true (t : ffbond) (r : ℝ) :
    bondCheckval t r = true ↔ |r - t.eqval| < BondTol := by
  rw [bondCheckval]
  by_cases h : |r - t.eqval| < BondTol
  · rw [if_pos h]
    simp [h]
  · rw [if_neg h]
    simp [h]

/-- C4: when bonds are guessed geometrically, the inferred bond list
contains the unordered pair (i, j) (stored with i < j) exactly when the
force-field bond table has a template named Ti-Tj or Tj-Ti whose
equilibrium value is within BondTol (strictly) of the pbc-aware
distance between the two atoms, the types being the resolved ones. -/
theorem connectivity_inference (ffatoms : List ffatom) (ffbonds : List ffbond)
    (atoms : List matom) (box : Option cell) (ats : List matom) (bl : List mbond)
    (h : connectivity ffatoms ffbonds atoms box = some (ats, bl))
    (i j : Nat) (hij : i < j) (hj : j < ats.length) :
    (∃ bd ∈ bl, bd.i = i ∧ bd.j = j) ↔
      ∃ t ∈ ffbonds,
        (t.name = atomType ats i ++ "-" ++ atomType ats j ∨
         t.name = atomType ats j ++ "-" ++ atomType ats i) ∧
        |dist2atoms (atomPos ats i) (atomPos ats j) box - t.eqval| < BondTol := by
  rw [connectivity] at h
  rcases hres : resolveTypes ffatoms atoms with _ | ats2
  · rw [hres] at h
    cases h
  · rw [hres] at h
    simp only [Option.some.injEq, Prod.mk.injEq] at h
    rcases h with ⟨rfl, hbl⟩
    constructor
    · intro hex
      rcases hex with ⟨bd, hbd, hbi, hbj⟩
      rw [← hbl, List.mem_flatMap] at hbd
      rcases hbd with ⟨i2, _, hbd⟩
      rw [List.mem_flatMap] at hbd
      rcases hbd with ⟨j2, _, hbd⟩
      by_cases hlt : i2 < j2
      · rw [if_pos hlt, List.mem_filterMap] at hbd
        rcases hbd with ⟨t, ht, hsome⟩
        by_cases hcond : t.name ∈ bondNames (atomType ats2 i2) (atomType ats2 j2) ∧
            bondCheckval t (dist2atoms (atomPos ats2 i2) (atomPos ats2 j2) box) = true
        · rw [if_pos hcond] at hsome
          cases hsome
          rw [mkbond] at hbi hbj
          simp only at hbi hbj
          subst hbi
          subst hbj
          refine ⟨t, ht, ?_, ?_⟩
          · have := hcond.1
            rw [bondNames] at this
            simpa using this
          · rw [← bondCheckval_eq_true]
            exact hcond.2
        · rw [if_neg hcond] at hsome
          cases hsome
      · rw [if_neg hlt] at hbd
        cases hbd
    · intro hex
      rcases hex with ⟨t, ht, hname, hval⟩
      refine ⟨mkbond i j, ?_, rfl, rfl⟩
      rw [← hbl, List.mem_flatMap]
      refine ⟨i, List.mem_range.mpr (Nat.lt_trans hij hj), ?_⟩
      rw [List.mem_flatMap]
      refine ⟨j, List.mem_range.mpr hj, ?_⟩
      rw [if_pos hij, List.mem_filterMap]
      refine ⟨t, ht, ?_⟩
      rw [if_pos]
      refine ⟨?_, ?_⟩
      · rw [bondNames]
        simpa using hname
      · rw [bondCheckval_eq_true]
        exact hval

/-- C4 witness: two atoms of resolved type CT one Angstrom apart and a
CT-CT template with equilibrium 1.2 (within 0.25) give exactly the
inferred bond (0, 1). -/
theorem connectivity_inference_witness :
    (∃ bd ∈ [mkbond 0 1], bd.i = 0 ∧ bd.j = 1) ↔
      ∃ t ∈ [(⟨"CT", "CT", "harm", [1.2], 1.2⟩ : ffbond)],
        (t.name = atomType [⟨"C", "CT", 0, "", [], 0, 0, 0, -1⟩,
            ⟨"C", "CT", 0, "", [], 1, 0, 0, -1⟩] 0 ++ "-" ++
            atomType [⟨"C", "CT", 0, "", [], 0, 0, 0, -1⟩,
              ⟨"C", "CT", 0, "", [], 1, 0, 0, -1⟩] 1 ∨
         t.name = atomType [⟨"C", "CT", 0, "", [], 0, 0, 0, -1⟩,
            ⟨"C", "CT", 0, "", [], 1, 0, 0, -1⟩] 1 ++ "-" ++
            atomType [⟨"C", "CT", 0, "", [], 0, 0, 0, -1⟩,
              ⟨"C", "CT", 0, "", [], 1, 0, 0, -1⟩] 0) ∧
        |dist2atoms
            (atomPos [⟨"C", "CT", 0, "", [], 0, 0, 0, -1⟩,
              ⟨"C", "CT", 0, "", [], 1, 0, 0, -1⟩] 0)
            (atomPos [⟨"C", "CT", 0, "", [], 0, 0, 0, -1⟩,
              ⟨"C", "CT", 0, "", [], 1, 0, 0, -1⟩] 1) none - t.eqval| < BondTol := by
  refine connectivity_inference [⟨"C", "CT", 12, 0, "lj", []⟩]
    [⟨"CT", "CT", "harm", [1.2], 1.2⟩]
    [⟨"C", "", 0, "", [], 0, 0, 0, -1⟩, ⟨"C", "", 0, "", [], 1, 0, 0, -1⟩] none
    [⟨"C", "CT", 0, "", [], 0, 0, 0, -1⟩, ⟨"C", "CT", 0, "", [], 1, 0, 0, -1⟩]
    [mkbond 0 1] ?_ 0 1 (by norm_num) (by simp)
  rw [connectivity]
  have hres : resolveTypes [(⟨"C", "CT", 12, 0, "lj", []⟩ : ffatom)]
      [⟨"C", "", 0, "", [], 0, 0, 0, -1⟩, ⟨"C", "", 0, "", [], 1, 0, 0, -1⟩] =
      some [⟨"C", "CT", 0, "", [], 0, 0, 0, -1⟩, ⟨"C", "CT", 0, "", [], 1, 0, 0, -1⟩] := by
    simp [resolveTypes]
    rfl
  rw [hres]
  simp only [Option.some.injEq, Prod.mk.injEq]
  refine ⟨trivial, ?_⟩
  have hdist : dist2atoms
      (atomPos [⟨"C", "CT", 0, "", [], 0, 0, 0, -1⟩, ⟨"C", "CT", 0, "", [], 1, 0, 0, -1⟩] 0)
      (atomPos [⟨"C", "CT", 0, "", [], 0, 0, 0, -1⟩, ⟨"C", "CT", 0, "", [], 1, 0, 0, -1⟩] 1)
      none = 1 := by
    simp [dist2atoms, atomPos, matom.pos]
  show ([0, 1].flatMap fun i => [0, 1].flatMap fun j => _) = [mkbond 0 1]
  simp only [List.flatMap_cons, List.flatMap_nil, List.append_nil]
  rw [if_neg (by norm_num), if_pos (by norm_num), if_neg (by norm_num), if_neg (by norm_num)]
  simp only [List.filterMap]
  rw [hdist]
  rw [if_pos]
  · rfl
  · refine ⟨?_, ?_⟩
    · simp [bondNames, ffbond.name, atomType]
    · rw [bondCheckval_eq_true, BondTol]
      rw [show |(1:ℝ) - 1.2| = 1 / 5 by
        rw [abs_sub_comm, abs_of_nonneg (by norm_num)]; norm_num]
      norm_num

/-! ### C8: minimum-image translation invariance -/

/-- shifting the argument of Python round by one shifts the result by
one, except at half-integers where the two residuals are opposite
halves; either way the residual square is unchanged. -/
theorem pround_add_one_sq (t : ℝ) :
    (t + 1 - (pround (t + 1) : ℝ)) ^ 2 = (t - (pround t : ℝ)) ^ 2 := by
  have hfl : ⌊t + 1⌋ = ⌊t⌋ + 1 := by
    rw [show t + 1 = t + (1 : ℤ) by push_cast; ring, Int.floor_add_int]
  have hfr : Int.fract (t + 1) = Int.fract t := by
    rw [show t + 1 = t + (1 : ℤ) by push_cast; ring, Int.fract_add_int]
  rw [pround, pround, hfr, hfl]
  rcases lt_trichotomy (Int.fract t) (1 / 2) with h | h | h
  · rw [if_pos h, if_pos h]
    push_cast
    ring
  · have h1 : ¬(Int.fract t < 1 / 2) := by rw [h]; exact lt_irrefl _
    have h2 : ¬((1 : ℝ) / 2 < Int.fract t) := by rw [h]; exact lt_irrefl _
    have hs : t - (⌊t⌋ : ℝ) = 1 / 2 := by
      have := Int.self_sub_floor t
      rw [this, h]
    rw [if_neg h1, if_neg h1, if_neg h2, if_neg h2]
    by_cases he : Even ⌊t⌋
    · have he2 : ¬ Even (⌊t⌋ + 1) := fun hcon => (Int.even_add_one.mp hcon) he
      rw [if_pos he, if_neg he2]
      push_cast
      nlinarith [hs]
    · have he2 : Even (⌊t⌋ + 1) := Int.even_add_one.mpr he
      rw [if_neg he, if_pos he2]
      push_cast
      nlinarith [hs]
  · have h1 : ¬(Int.fract t < 1 / 2) := by linarith
    rw [if_neg h1, if_neg h1, if_pos h, if_pos h]
    push_cast
    ring

/-- the minimum-image residual product is invariant under adding one
box length to the separation. -/
theorem wrap_mul_add (d L : ℝ) (hL : L ≠ 0) :
    (d + L - (pround ((d + L) / L) : ℝ) * L) * (d + L - (pround ((d + L) / L) : ℝ) * L) =
      (d - (pround (d / L) : ℝ) * L) * (d - (pround (d / L) : ℝ) * L) := by
  have h1 : (d + L) / L = d / L + 1 := by field_simp
  rw [h1]
  have e1 : d + L - (pround (d / L + 1) : ℝ) * L =
      (d / L + 1 - (pround (d / L + 1) : ℝ)) * L := by
    rw [sub_mul, add_mul, div_mul_cancel₀ _ hL, one_mul]
  have e2 : d - (pround (d / L) : ℝ) * L = (d / L - (pround (d / L) : ℝ)) * L := by
    rw [sub_mul, div_mul_cancel₀ _ hL]
  rw [e1, e2]
  have h2 := pround_add_one_sq (d / L)
  rw [pow_two, pow_two] at h2
  calc (d / L + 1 - (pround (d / L + 1) : ℝ)) * L * ((d / L + 1 - (pround (d / L + 1) : ℝ)) * L)
      = (d / L + 1 - (pround (d / L + 1) : ℝ)) * (d / L + 1 - (pround (d / L + 1) : ℝ)) * (L * L) := by
        ring
    _ = (d / L - (pround (d / L) : ℝ)) * (d / L - (pround (d / L) : ℝ)) * (L * L) := by rw [h2]
    _ = (d / L - (pround (d / L) : ℝ)) * L * ((d / L - (pround (d / L) : ℝ)) * L) := by ring

/-- the minimum-image residual product is invariant under subtracting
one box length from the separation. -/
theorem wrap_mul_sub (d L : ℝ) (hL : L ≠ 0) :
    (d - L - (pround ((d - L) / L) : ℝ) * L) * (d - L - (pround ((d - L) / L) : ℝ) * L) =
      (d - (pround (d / L) : ℝ) * L) * (d - (pround (d / L) : ℝ) * L) := by
  have h := wrap_mul_add (d - L) L hL
  rw [show d - L + L = d by ring] at h
  exact h.symm

/-- an orthorhombic cell is not triclinic and its box lengths are the
lattice constants. -/
theorem ortho_box (bx : cell) (ha : bx.alpha = 90) (hb : bx.beta = 90) (hg : bx.gamma = 90)
    (hpa : 0 < bx.a) (hpb : 0 < bx.b) :
    ¬ bx.triclinic ∧ bx.lx = bx.a ∧ bx.ly = bx.b ∧ bx.lz = bx.c := by
  have hsg : bx.sg = 1 := by
    rw [cell.sg, hg, show (90 : ℝ) * Real.pi / 180 = Real.pi / 2 by ring, Real.sin_pi_div_two]
  have hca : bx.ca = 0 := by
    rw [cell.ca, ha, show (90 : ℝ) * Real.pi / 180 = Real.pi / 2 by ring, Real.cos_pi_div_two]
  have hcb : bx.cb = 0 := by
    rw [cell.cb, hb, show (90 : ℝ) * Real.pi / 180 = Real.pi / 2 by ring, Real.cos_pi_div_two]
  have hcg : bx.cg = 0 := by
    rw [cell.cg, hg, show (90 : ℝ) * Real.pi / 180 = Real.pi / 2 by ring, Real.cos_pi_div_two]
  refine ⟨?_, rfl, ?_, ?_⟩
  · rw [cell.triclinic]
    push_neg
    exact ⟨ha, hb, hg⟩
  · rw [cell.ly, hsg, mul_one]
  · rw [cell.lz, cell.vol, hca, hcb, hcg, hsg]
    rw [show (1 : ℝ) - 0 ^ 2 - 0 ^ 2 - 0 ^ 2 + 2 * 0 * 0 * 0 = 1 by ring, Real.sqrt_one]
    field_simp

/-- for a non-triclinic box, dist2atoms is the per-axis wrapped
euclidean distance. -/
theorem ortho_dist (bx : cell) (p q : vector) (htri : ¬ bx.triclinic) :
    dist2atoms p q (some bx) = Real.sqrt
      ((if 'x' ∈ bx.pbc then q.x - p.x - pround ((q.x - p.x) / bx.lx) * bx.lx else q.x - p.x) *
       (if 'x' ∈ bx.pbc then q.x - p.x - pround ((q.x - p.x) / bx.lx) * bx.lx else q.x - p.x) +
       (if 'y' ∈ bx.pbc then q.y - p.y - pround ((q.y - p.y) / bx.ly) * bx.ly else q.y - p.y) *
       (if 'y' ∈ bx.pbc then q.y - p.y - pround ((q.y - p.y) / bx.ly) * bx.ly else q.y - p.y) +
       (if 'z' ∈ bx.pbc then q.z - p.z - pround ((q.z - p.z) / bx.lz) * bx.lz else q.z - p.z) *
       (if 'z' ∈ bx.pbc then q.z - p.z - pround ((q.z - p.z) / bx.lz) * bx.lz else q.z - p.z)) := by
  simp only [dist2atoms]
  rw [if_neg htri]

/-- C8: for an orthorhombic cell (all lattice angles 90 degrees,
positive edges), translating either of the two atoms by exactly one box
length along any axis listed in the cell's pbc setting leaves
dist2atoms unchanged. -/
theorem minimum_image_translation_invariance (bx : cell) (p q : vector)
    (ha : bx.alpha = 90) (hb : bx.beta = 90) (hg : bx.gamma = 90)
    (hpa : 0 < bx.a) (hpb : 0 < bx.b) (hpc : 0 < bx.c) :
    ('x' ∈ bx.pbc →
      dist2atoms p ⟨q.x + bx.lx, q.y, q.z⟩ (some bx) = dist2atoms p q (some bx) ∧
      dist2atoms ⟨p.x + bx.lx, p.y, p.z⟩ q (some bx) = dist2atoms p q (some bx)) ∧
    ('y' ∈ bx.pbc →
      dist2atoms p ⟨q.x, q.y + bx.ly, q.z⟩ (some bx) = dist2atoms p q (some bx) ∧
      dist2atoms ⟨p.x, p.y + bx.ly, p.z⟩ q (some bx) = dist2atoms p q (some bx)) ∧
    ('z' ∈ bx.pbc →
      dist2atoms p ⟨q.x, q.y, q.z + bx.lz⟩ (some bx) = dist2atoms p q (some bx) ∧
      dist2atoms ⟨p.x, p.y, p.z + bx.lz⟩ q (some bx) = dist2atoms p q (some bx)) := by
  rcases ortho_box bx ha hb hg hpa hpb with ⟨htri, hlx, hly, hlz⟩
  have hxne : bx.lx ≠ 0 := by rw [hlx]; exact ne_of_gt hpa
  have hyne : bx.ly ≠ 0 := by rw [hly]; exact ne_of_gt hpb
  have hzne : bx.lz ≠ 0 := by rw [hlz]; exact ne_of_gt hpc
  refine ⟨fun hmem => ⟨?_, ?_⟩, fun hmem => ⟨?_, ?_⟩, fun hmem => ⟨?_, ?_⟩⟩
  · rw [ortho_dist bx p ⟨q.x + bx.lx, q.y, q.z⟩ htri, ortho_dist bx p q htri]
    simp only
    rw [if_pos hmem, if_pos hmem]
    rw [show q.x + bx.lx - p.x = q.x - p.x + bx.lx by ring, wrap_mul_add _ _ hxne]
  · rw [ortho_dist bx ⟨p.x + bx.lx, p.y, p.z⟩ q htri, ortho_dist bx p q htri]
    simp only
    rw [if_pos hmem, if_pos hmem]
    rw [show q.x - (p.x + bx.lx) = q.x - p.x - bx.lx by ring, wrap_mul_sub _ _ hxne]
  · rw [ortho_dist bx p ⟨q.x, q.y + bx.ly, q.z⟩ htri, ortho_dist bx p q htri]
    simp only
    rw [if_pos hmem, if_pos hmem]
    rw [show q.y + bx.ly - p.y = q.y - p.y + bx.ly by ring, wrap_mul_add _ _ hyne]
  · rw [ortho_dist bx ⟨p.x, p.y + bx.ly, p.z⟩ q htri, ortho_dist bx p q htri]
    simp only
    rw [if_pos hmem, if_pos hmem]
    rw [show q.y - (p.y + bx.ly) = q.y - p.y - bx.ly by ring, wrap_mul_sub _ _ hyne]
  · rw [ortho_dist bx p ⟨q.x, q.y, q.z + bx.lz⟩ htri, ortho_dist bx p q htri]
    simp only
    rw [if_pos hmem, if_pos hmem]
    rw [show q.z + bx.lz - p.z = q.z - p.z + bx.lz by ring, wrap_mul_add _ _ hzne]
  · rw [ortho_dist bx ⟨p.x, p.y, p.z + bx.lz⟩ q htri, ortho_dist bx p q htri]
    simp only
    rw [if_pos hmem, if_pos hmem]
    rw [show q.z - (p.z + bx.lz) = q.z - p.z - bx.lz by ring, wrap_mul_sub _ _ hzne]

/-- C8 witness: the cubic box of edge 2 periodic in all three axes, on
two concrete points. -/
theorem minimum_image_translation_invariance_witness :
    dist2atoms ⟨(0 : ℝ), 0, 0⟩
        ⟨(0.3 : ℝ) + (⟨2, 2, 2, 90, 90, 90, ['x', 'y', 'z'], false⟩ : cell).lx, 0, 0⟩
        (some ⟨2, 2, 2, 90, 90, 90, ['x', 'y', 'z'], false⟩) =
      dist2atoms ⟨(0 : ℝ), 0, 0⟩ ⟨(0.3 : ℝ), 0, 0⟩
        (some ⟨2, 2, 2, 90, 90, 90, ['x', 'y', 'z'], false⟩) := by
  have h := (minimum_image_translation_invariance
    ⟨2, 2, 2, 90, 90, 90, ['x', 'y', 'z'], false⟩ ⟨(0 : ℝ), 0, 0⟩ ⟨(0.3 : ℝ), 0, 0⟩
    rfl rfl rfl (by norm_num) (by norm_num) (by norm_num)).1 (by decide)
  exact h.1

/-! ### C9: division by zero on degenerate difference vectors -/

/-- C9: when the two atoms of a difference vector coincide, the
denominator of the acos argument in angle3atoms is exactly zero, and so
is the denominator used by vector.unit on the zero vector.  The Python
source divides by these values unguarded, so it raises an uncaught
ZeroDivisionError instead of returning a finite value or signalling a
reportable geometry error, contradicting the claim. -/
theorem geometry_divzero_on_coincident :
    (∀ ati atk : vector, angle3atomsDenom ati ati atk = 0) ∧
    unitDenom 0 = 0 ∧
    angle3atomsDenom ⟨0, 0, 0⟩ ⟨0, 0, 0⟩ ⟨1, 0, 0⟩ = 0 := by
  have hz : ∀ ati atk : vector, angle3atomsDenom ati ati atk = 0 := by
    intro ati atk
    rw [angle3atomsDenom]
    have h1 : vector.vabs ⟨ati.x - ati.x, ati.y - ati.y, ati.z - ati.z⟩ = 0 := by
      simp [vector.vabs]
    rw [h1, zero_mul]
  refine ⟨hz, ?_, hz ⟨0, 0, 0⟩ ⟨1, 0, 0⟩⟩
  rw [unitDenom]
  simp [vector.vabs, vector.zero_def]

/-! ### C2: z-matrix round trip.  Vector-algebra lemmas for the frame
construction of zstep. -/

namespace vector

theorem scale_scale (a : vector) (s t : ℝ) : (a.scale s).scale t = a.scale (s * t) := by
  simp only [scale]
  exact ext_xyz (by ring) (by ring) (by ring)

theorem neg_def (a : vector) : -a = ⟨-a.x, -a.y, -a.z⟩ := rfl

theorem neg_cross (a b : vector) : (-a).cross b = -(a.cross b) := by
  simp only [cross, neg_def]
  exact ext_xyz (by ring) (by ring) (by ring)

theorem cross_anticomm (a b : vector) : a.cross b = -(b.cross a) := by
  simp only [cross, neg_def]
  exact ext_xyz (by ring) (by ring) (by ring)

/-- norm of a cross product of perpendicular vectors. -/
theorem vabs_cross_perp (a b : vector) (hperp : a.dot b = 0) :
    (a.cross b).vabs = a.vabs * b.vabs := by
  rw [vabs_eq_sqrt_dot, cross_dot_self, hperp]
  rw [show a.dot a * b.dot b - 0 ^ 2 = a.dot a * b.dot b by ring]
  rw [Real.sqrt_mul (dot_self_nonneg a), vabs_eq_sqrt_dot, vabs_eq_sqrt_dot]

/-- the unit normal-in-plane vector of the zstep frame, written as a
single rescaled cross product. -/
theorem unit_cross_unit (P w : vector) (hP : P ≠ 0) (hw : w ≠ 0) (hperp : P.dot w = 0) :
    (P.cross w.unit).unit = (P.cross w).scale (1 / (w.vabs * P.vabs)) := by
  have hWpos : 0 < w.vabs := vabs_pos_of_ne_zero hw
  have hPpos : 0 < P.vabs := vabs_pos_of_ne_zero hP
  rw [unit_eq_scale w, cross_scale_right, unit_eq_scale, vabs_scale]
  rw [vabs_cross_perp P w hperp]
  rw [abs_of_pos (by positivity)]
  rw [scale_scale]
  congr 1
  field_simp

/-- linear-combination expansions, proved coordinatewise. -/
theorem dot_comb3 (a b c v : vector) (s t u : ℝ) :
    (a.scale s + b.scale t + c.scale u).dot v =
      s * a.dot v + t * b.dot v + u * c.dot v := by
  simp only [dot, scale, add_def]
  ring

theorem dot_comb3_self (a b c : vector) (s t u : ℝ) :
    (a.scale s + b.scale t + c.scale u).dot (a.scale s + b.scale t + c.scale u) =
      s ^ 2 * a.dot a + t ^ 2 * b.dot b + u ^ 2 * c.dot c +
        2 * s * t * a.dot b + 2 * s * u * a.dot c + 2 * t * u * b.dot c := by
  simp only [dot, scale, add_def]
  ring

theorem cross_comb3 (a b c v : vector) (s t u : ℝ) :
    (a.scale s + b.scale t + c.scale u).cross v =
      (a.cross v).scale s + (b.cross v).scale t + (c.cross v).scale u := by
  simp only [cross, scale, add_def]
  exact ext_xyz (by ring) (by ring) (by ring)

theorem sub_add_comm3 (a b c d : vector) : a + b + c - d = (a - d) + b + c := by
  simp only [add_def, sub_def]
  exact ext_xyz (by ring) (by ring) (by ring)

end vector

/-- decomposition of the zstep construction over the orthogonal (not
normalised) frame P = C-B, P x w, w = (D-C) x P. -/
theorem zstep_sub (vB vC vD : vector) (r ang dih : ℝ)
    (hP : vC - vB ≠ 0) (hw : (vD - vC).cross (vC - vB) ≠ 0) :
    zstep vB vC vD r ang dih - vB =
      ((vC - vB).scale (r * Real.cos ang / (vC - vB).vabs)) +
      (((vC - vB).cross ((vD - vC).cross (vC - vB))).scale
        (r * Real.sin ang * Real.cos dih /
          (((vD - vC).cross (vC - vB)).vabs * (vC - vB).vabs))) +
      (((vD - vC).cross (vC - vB)).scale
        (r * Real.sin ang * Real.sin dih / ((vD - vC).cross (vC - vB)).vabs)) := by
  have hPpos : 0 < (vC - vB).vabs := vector.vabs_pos_of_ne_zero hP
  have hWpos : 0 < ((vD - vC).cross (vC - vB)).vabs := vector.vabs_pos_of_ne_zero hw
  have hperp : (vC - vB).dot ((vD - vC).cross (vC - vB)) = 0 := by
    rw [vector.dot_comm]
    exact vector.dot_cross_right _ _
  simp only [zstep]
  rw [vector.unit_cross_unit (vC - vB) ((vD - vC).cross (vC - vB)) hP hw hperp]
  rw [vector.unit_eq_scale]
  rw [vector.scale_scale, vector.scale_scale]
  rw [vector.sub_add_comm3]
  have hvb : vC - (vC - vB).scale (((vC - vB).vabs - r * Real.cos ang) / (vC - vB).vabs) - vB =
      (vC - vB).scale (r * Real.cos ang / (vC - vB).vabs) := by
    have hx : ((vC - vB).vabs - r * Real.cos ang) / (vC - vB).vabs =
        1 - r * Real.cos ang / (vC - vB).vabs := by
      field_simp
    rw [hx]
    simp only [vector.scale, vector.sub_def]
    exact vector.ext_xyz (by ring) (by ring) (by ring)
  rw [hvb]
  congr 1
  · congr 1
    congr 1
    field_simp
  · congr 1
    field_simp

/-! ### C2: distance, angle and dihedral recovered by the zstep frame -/

/-- dist2atoms without a box is the norm of the difference vector. -/
theorem dist2atoms_none (u v : vector) : dist2atoms u v none = (v - u).vabs := by
  simp only [dist2atoms, vector.vabs, vector.sub_def]
  rw [show (v.x - u.x) * (v.x - u.x) + (v.y - u.y) * (v.y - u.y) + (v.z - u.z) * (v.z - u.z) =
      (v.x - u.x) ^ 2 + (v.y - u.y) ^ 2 + (v.z - u.z) ^ 2 by ring]

theorem vabs_sub_comm (u v : vector) : (u - v).vabs = (v - u).vabs := by
  simp only [vector.vabs, vector.sub_def]
  rw [show (u.x - v.x) ^ 2 + (u.y - v.y) ^ 2 + (u.z - v.z) ^ 2 =
      (v.x - u.x) ^ 2 + (v.y - u.y) ^ 2 + (v.z - u.z) ^ 2 by ring]

theorem vector_neg_sub (u v : vector) : u - v = -(v - u) := by
  simp only [vector.sub_def, vector.neg_def]
  exact vector.ext_xyz (by ring) (by ring) (by ring)

/-- first dihedral normal dotted with the second, fully expanded: only
the m-component of the combination survives. -/
theorem dihedral_dot_expand (P w : vector) (s t u : ℝ) :
    (((-(P.scale s + (P.cross w).scale t + w.scale u)).cross P).dot (-w)) =
      t * ((P.dot P) * (w.dot w) - (P.dot w) ^ 2) := by
  simp only [vector.cross, vector.scale, vector.dot, vector.add_def, vector.neg_def]
  ring

/-- cross of the two dihedral normals dotted with the axis, fully
expanded: only the n-component of the combination survives. -/
theorem dihedral_cross_dot_expand (P w : vector) (s t u : ℝ) :
    ((((-(P.scale s + (P.cross w).scale t + w.scale u)).cross P).cross (-w)).dot P) =
      u * ((P.dot P) * (w.dot w) - (P.dot w) ^ 2) := by
  simp only [vector.cross, vector.scale, vector.dot, vector.add_def, vector.neg_def]
  ring

/-- argument of a positively scaled unit complex number. -/
theorem arg_scaled_cos_sin (K θ : ℝ) (hK : 0 < K) (hθ : θ ∈ Set.Ioc (-Real.pi) Real.pi) :
    Complex.arg ⟨K * Real.cos θ, K * Real.sin θ⟩ = θ := by
  have h1 : (⟨K * Real.cos θ, K * Real.sin θ⟩ : ℂ) =
      (K : ℂ) * (Complex.cos θ + Complex.sin θ * Complex.I) := by
    apply Complex.ext
    · simp [← Complex.ofReal_cos, ← Complex.ofReal_sin]
    · simp [← Complex.ofReal_cos, ← Complex.ofReal_sin]
  rw [h1, Complex.arg_real_mul _ hK, Complex.arg_cos_add_sin_mul_I hθ]

/-- one placement step of zmat2cart recovers its inputs: the distance
to the bond reference is r, the angle at the bond reference towards the
angle reference is ang (both in real arithmetic, angles in radians
converted to degrees), and the signed dihedral over the three
references is dih whenever dih lies in (-pi, pi]. -/
theorem zstep_roundtrip (vB vC vD : vector) (r ang dih : ℝ)
    (hr : 0 < r) (ha0 : 0 < ang) (hapi : ang < Real.pi)
    (hP : vC - vB ≠ 0) (hw : (vD - vC).cross (vC - vB) ≠ 0) :
    dist2atoms (zstep vB vC vD r ang dih) vB none = r ∧
    angle3atoms (zstep vB vC vD r ang dih) vB vC none = ang * 180 / Real.pi ∧
    (dih ∈ Set.Ioc (-Real.pi) Real.pi →
      dihedral4 (zstep vB vC vD r ang dih) vB vC vD = dih * 180 / Real.pi) := by
  have hE := zstep_sub vB vC vD r ang dih hP hw
  have hBCpos : 0 < (vC - vB).vabs := vector.vabs_pos_of_ne_zero hP
  have hWpos : 0 < ((vD - vC).cross (vC - vB)).vabs := vector.vabs_pos_of_ne_zero hw
  have hBCne : (vC - vB).vabs ≠ 0 := ne_of_gt hBCpos
  have hWne : ((vD - vC).cross (vC - vB)).vabs ≠ 0 := ne_of_gt hWpos
  have hsin : 0 < Real.sin ang := Real.sin_pos_of_pos_of_lt_pi ha0 hapi
  have hPw0 : (vC - vB).dot ((vD - vC).cross (vC - vB)) = 0 := by
    rw [vector.dot_comm]
    exact vector.dot_cross_right _ _
  have hPP : (vC - vB).dot (vC - vB) = (vC - vB).vabs ^ 2 := (vector.vabs_sq _).symm
  have hww : ((vD - vC).cross (vC - vB)).dot ((vD - vC).cross (vC - vB)) =
      ((vD - vC).cross (vC - vB)).vabs ^ 2 := (vector.vabs_sq _).symm
  have hPwPw : ((vC - vB).cross ((vD - vC).cross (vC - vB))).dot
      ((vC - vB).cross ((vD - vC).cross (vC - vB))) =
      (vC - vB).vabs ^ 2 * ((vD - vC).cross (vC - vB)).vabs ^ 2 := by
    rw [vector.cross_dot_self, hPw0, hPP, hww]
    ring
  have haPw : (vC - vB).dot ((vC - vB).cross ((vD - vC).cross (vC - vB))) = 0 := by
    rw [vector.dot_comm]
    exact vector.dot_cross_left _ _
  have hPww : ((vC - vB).cross ((vD - vC).cross (vC - vB))).dot
      ((vD - vC).cross (vC - vB)) = 0 := vector.dot_cross_right _ _
  have hAA : (zstep vB vC vD r ang dih - vB).dot (zstep vB vC vD r ang dih - vB) = r ^ 2 := by
    rw [hE, vector.dot_comb3_self, hPP, hww, hPwPw, haPw, hPw0, hPww]
    have h1 := Real.sin_sq_add_cos_sq ang
    have h2 := Real.sin_sq_add_cos_sq dih
    field_simp
    linear_combination (r ^ 2 * ((vC - vB).vabs ^ 2 * ((vD - vC).cross (vC - vB)).vabs ^ 2)) *
        h1 +
      (r ^ 2 * Real.sin ang ^ 2 *
        ((vC - vB).vabs ^ 2 * ((vD - vC).cross (vC - vB)).vabs ^ 2)) * h2
  have hvabs : (zstep vB vC vD r ang dih - vB).vabs = r := by
    rw [vector.vabs_eq_sqrt_dot, hAA, Real.sqrt_sq hr.le]
  refine ⟨?_, ?_, ?_⟩
  · rw [dist2atoms_none, vabs_sub_comm, hvabs]
  · have hdotP : (zstep vB vC vD r ang dih - vB).dot (vC - vB) =
        r * Real.cos ang * (vC - vB).vabs := by
      rw [hE, vector.dot_comb3]
      rw [hPP]
      rw [show ((vC - vB).cross ((vD - vC).cross (vC - vB))).dot (vC - vB) = 0 from
        vector.dot_cross_left _ _]
      rw [show ((vD - vC).cross (vC - vB)).dot (vC - vB) = 0 from by
        rw [vector.dot_comm]; exact hPw0]
      field_simp
      ring
    simp only [angle3atoms]
    rw [show (⟨(zstep vB vC vD r ang dih).x - vB.x, (zstep vB vC vD r ang dih).y - vB.y,
        (zstep vB vC vD r ang dih).z - vB.z⟩ : vector) = zstep vB vC vD r ang dih - vB from rfl]
    rw [show (⟨vC.x - vB.x, vC.y - vB.y, vC.z - vB.z⟩ : vector) = vC - vB from rfl]
    rw [hdotP, hvabs]
    rw [show r * Real.cos ang * (vC - vB).vabs / (r * (vC - vB).vabs) = Real.cos ang from by
      field_simp; ring]
    rw [Real.arccos_cos ha0.le hapi.le]
  · intro hdih
    have hK : 0 < r * Real.sin ang * (vC - vB).vabs * ((vD - vC).cross (vC - vB)).vabs :=
      mul_pos (mul_pos (mul_pos hr hsin) hBCpos) hWpos
    simp only [dihedral4]
    rw [show vB - zstep vB vC vD r ang dih = -(zstep vB vC vD r ang dih - vB) from
      vector_neg_sub _ _]
    rw [hE]
    rw [show (vC - vB).cross (vD - vC) = -((vD - vC).cross (vC - vB)) from
      vector.cross_anticomm _ _]
    rw [dihedral_dot_expand, dihedral_cross_dot_expand]
    rw [hPP, hww, hPw0]
    rw [show r * Real.sin ang * Real.cos dih /
          (((vD - vC).cross (vC - vB)).vabs * (vC - vB).vabs) *
          ((vC - vB).vabs ^ 2 * ((vD - vC).cross (vC - vB)).vabs ^ 2 - 0 ^ 2) =
        (r * Real.sin ang * (vC - vB).vabs * ((vD - vC).cross (vC - vB)).vabs) *
          Real.cos dih from by field_simp; ring]
    rw [show r * Real.sin ang * Real.sin dih / ((vD - vC).cross (vC - vB)).vabs *
          ((vC - vB).vabs ^ 2 * ((vD - vC).cross (vC - vB)).vabs ^ 2 - 0 ^ 2) /
          (vC - vB).vabs =
        (r * Real.sin ang * (vC - vB).vabs * ((vD - vC).cross (vC - vB)).vabs) *
          Real.sin dih from by field_simp; ring]
    rw [arg_scaled_cos_sin _ dih hK hdih]

/-- the theta construction of the code recovers the polar angle: the
cosine and sine of the (possibly flipped) arccos value are the
normalised components of the reference separation. -/
theorem ztheta_cos_sin (delx dely : ℝ) (hpos : 0 < Real.sqrt (delx * delx + dely * dely)) :
    Real.cos (if dely < 0 then
        2 * Real.pi - Real.arccos (delx / Real.sqrt (delx * delx + dely * dely))
      else Real.arccos (delx / Real.sqrt (delx * delx + dely * dely))) =
      delx / Real.sqrt (delx * delx + dely * dely) ∧
    Real.sin (if dely < 0 then
        2 * Real.pi - Real.arccos (delx / Real.sqrt (delx * delx + dely * dely))
      else Real.arccos (delx / Real.sqrt (delx * delx + dely * dely))) =
      dely / Real.sqrt (delx * delx + dely * dely) := by
  set rho := Real.sqrt (delx * delx + dely * dely) with hrho
  have hnn : (0 : ℝ) ≤ delx * delx + dely * dely := by
    nlinarith [mul_self_nonneg delx, mul_self_nonneg dely]
  have hsq : rho ^ 2 = delx * delx + dely * dely := by
    rw [hrho, Real.sq_sqrt hnn]
  have hle1 : delx / rho ≤ 1 := by
    rw [div_le_one hpos]
    nlinarith [sq_nonneg dely, sq_nonneg (rho - delx)]
  have hlem1 : -1 ≤ delx / rho := by
    rw [le_div_iff hpos]
    nlinarith [sq_nonneg dely, sq_nonneg (rho + delx)]
  have hcos0 : Real.cos (Real.arccos (delx / rho)) = delx / rho := Real.cos_arccos hlem1 hle1
  have hsin0 : Real.sin (Real.arccos (delx / rho)) = |dely| / rho := by
    rw [Real.sin_arccos]
    rw [show 1 - (delx / rho) ^ 2 = (dely / rho) ^ 2 from by
      field_simp
      nlinarith [hsq]]
    rw [Real.sqrt_sq_eq_abs, abs_div, abs_of_pos hpos]
  by_cases hy : dely < 0
  · rw [if_pos hy]
    constructor
    · rw [Real.cos_sub, Real.cos_two_pi, Real.sin_two_pi, hcos0]
      ring
    · rw [Real.sin_sub, Real.cos_two_pi, Real.sin_two_pi, hsin0]
      rw [abs_of_neg hy]
      ring
  · rw [if_neg hy]
    refine ⟨hcos0, ?_⟩
    rw [hsin0, abs_of_nonneg (not_lt.mp hy)]

/-- the third-atom placement recovers its distance and angle. -/
theorem zthird_roundtrip (pir pia : vector) (r ang : ℝ)
    (hr : 0 < r) (ha0 : 0 < ang) (hapi : ang < Real.pi)
    (hz1 : pir.z = 0) (hz2 : pia.z = 0) (hne : pia ≠ pir) :
    dist2atoms (zthird pir pia r ang) pir none = r ∧
    angle3atoms (zthird pir pia r ang) pir pia none = ang * 180 / Real.pi := by
  have hpos : 0 < Real.sqrt ((pia.x - pir.x) * (pia.x - pir.x) +
      (pia.y - pir.y) * (pia.y - pir.y)) := by
    apply Real.sqrt_pos.mpr
    by_contra hc
    push_neg at hc
    have hx : pia.x - pir.x = 0 := by
      nlinarith [mul_self_nonneg (pia.x - pir.x), mul_self_nonneg (pia.y - pir.y)]
    have hy : pia.y - pir.y = 0 := by
      nlinarith [mul_self_nonneg (pia.x - pir.x), mul_self_nonneg (pia.y - pir.y)]
    exact hne (vector.ext_xyz (by linarith) (by linarith) (by rw [hz1, hz2]))
  rcases ztheta_cos_sin (pia.x - pir.x) (pia.y - pir.y) hpos with ⟨hcos, hsin⟩
  set rho := Real.sqrt ((pia.x - pir.x) * (pia.x - pir.x) +
      (pia.y - pir.y) * (pia.y - pir.y)) with hrho
  set thc := (if pia.y - pir.y < 0 then
      2 * Real.pi - Real.arccos ((pia.x - pir.x) / rho)
    else Real.arccos ((pia.x - pir.x) / rho)) with hthc
  have hz : zthird pir pia r ang =
      ⟨pir.x + r * Real.cos (thc - ang), pir.y + r * Real.sin (thc - ang), 0⟩ := by
    simp only [zthird]
  have hrsq : ∀ t : ℝ, r * Real.cos t * (r * Real.cos t) + r * Real.sin t * (r * Real.sin t) =
      r ^ 2 := by
    intro t
    have := Real.sin_sq_add_cos_sq t
    nlinarith [this]
  constructor
  · rw [hz, dist2atoms_none]
    simp only [vector.sub_def, vector.vabs]
    rw [show (pir.x - (pir.x + r * Real.cos (thc - ang))) ^ 2 +
        (pir.y - (pir.y + r * Real.sin (thc - ang))) ^ 2 + (pir.z - 0) ^ 2 = r ^ 2 from by
      rw [hz1]
      have := Real.sin_sq_add_cos_sq (thc - ang)
      nlinarith [this]]
    exact Real.sqrt_sq hr.le
  · rw [hz]
    simp only [angle3atoms]
    have hdot : vector.dot ⟨pir.x + r * Real.cos (thc - ang) - pir.x,
        pir.y + r * Real.sin (thc - ang) - pir.y, 0 - pir.z⟩
        ⟨pia.x - pir.x, pia.y - pir.y, pia.z - pir.z⟩ = r * rho * Real.cos ang := by
      rw [vector.dot]
      simp only
      rw [hz1, hz2]
      have hdx : pia.x - pir.x = rho * Real.cos thc := by
        rw [hcos]
        field_simp
      have hdy : pia.y - pir.y = rho * Real.sin thc := by
        rw [hsin]
        field_simp
      rw [hdx, hdy]
      have key : Real.cos thc * Real.cos (thc - ang) + Real.sin thc * Real.sin (thc - ang) =
          Real.cos ang := by
        rw [← Real.cos_sub]
        congr 1
        ring
      linear_combination (r * rho) * key
    have hvji : vector.vabs ⟨pir.x + r * Real.cos (thc - ang) - pir.x,
        pir.y + r * Real.sin (thc - ang) - pir.y, 0 - pir.z⟩ = r := by
      simp only [vector.vabs]
      rw [show (pir.x + r * Real.cos (thc - ang) - pir.x) ^ 2 +
          (pir.y + r * Real.sin (thc - ang) - pir.y) ^ 2 + (0 - pir.z) ^ 2 = r ^ 2 from by
        rw [hz1]
        have := Real.sin_sq_add_cos_sq (thc - ang)
        nlinarith [this]]
      exact Real.sqrt_sq hr.le
    have hvjk : vector.vabs ⟨pia.x - pir.x, pia.y - pir.y, pia.z - pir.z⟩ = rho := by
      simp only [vector.vabs]
      have hzz : (pia.x - pir.x) ^ 2 + (pia.y - pir.y) ^ 2 + (pia.z - pir.z) ^ 2 =
          (pia.x - pir.x) * (pia.x - pir.x) + (pia.y - pir.y) * (pia.y - pir.y) := by
        rw [hz1, hz2]
        ring
      rw [hzz]
    rw [hdot, hvji, hvjk]
    rw [show r * rho * Real.cos ang / (r * rho) = Real.cos ang from by
      have hrne : r ≠ 0 := ne_of_gt hr
      have hrhone : rho ≠ 0 := ne_of_gt hpos
      field_simp]
    rw [Real.arccos_cos ha0.le hapi.le]

/-! ### C2: unfolding zpos at each kind of index -/

theorem zpos_zero (z : List zrec) : zpos z 0 = ⟨0, 0, 0⟩ := by
  simp [zpos]

theorem zpos_one (z : List zrec) : zpos z 1 = ⟨(z.getD 1 default).r, 0, 0⟩ := by
  simp [zpos]

theorem zpos_two (z : List zrec)
    (hir : (z.getD 2 default).ir - 1 < 2) (hia : (z.getD 2 default).ia - 1 < 2) :
    zpos z 2 = zthird (zpos z ((z.getD 2 default).ir - 1)) (zpos z ((z.getD 2 default).ia - 1))
      (z.getD 2 default).r ((z.getD 2 default).a * Real.pi / 180) := by
  rw [zpos]
  rw [dif_pos hir, dif_pos hia]

theorem zpos_step (z : List zrec) (n : Nat)
    (hir : (z.getD (n + 3) default).ir - 1 < n + 3)
    (hia : (z.getD (n + 3) default).ia - 1 < n + 3)
    (hid : (z.getD (n + 3) default).idr - 1 < n + 3) :
    zpos z (n + 3) = zstep (zpos z ((z.getD (n + 3) default).ir - 1))
      (zpos z ((z.getD (n + 3) default).ia - 1))
      (zpos z ((z.getD (n + 3) default).idr - 1))
      (z.getD (n + 3) default).r ((z.getD (n + 3) default).a * Real.pi / 180)
      ((z.getD (n + 3) default).d * Real.pi / 180) := by
  rw [zpos]
  rw [dif_pos hir, dif_pos hia, dif_pos hid]

/-- C2, amended: z-matrix round trip over real arithmetic.  For every
z-matrix of at least 4 records whose records carry positive distances,
bond angles strictly between 0 and 180 degrees, and references to
already-placed atoms, and whose reference geometry is non-degenerate
(the second record's two references are distinct; for each atom i >= 3
the bond and angle reference positions differ and the three reference
positions are not collinear, which the construction requires to avoid
dividing by zero): the distance from each placed atom to its bond
reference equals r, the angle at the bond reference towards the angle
reference equals a, and for atoms i >= 3 the signed dihedral over the
three references equals d whenever d lies in (-180, 180] (for d outside
that range only the congruence modulo 360 can hold, see the
counterexample). -/
theorem zmat_roundtrip (z : List zrec) (hlen : 4 ≤ z.length) :
    (0 < (z.getD 1 default).r →
      dist2atoms (zpos z 1) (zpos z 0) none = (z.getD 1 default).r) ∧
    (0 < (z.getD 1 default).r → 0 < (z.getD 2 default).r →
      0 < (z.getD 2 default).a → (z.getD 2 default).a < 180 →
      1 ≤ (z.getD 2 default).ir → (z.getD 2 default).ir ≤ 2 →
      1 ≤ (z.getD 2 default).ia → (z.getD 2 default).ia ≤ 2 →
      (z.getD 2 default).ir ≠ (z.getD 2 default).ia →
      dist2atoms (zpos z 2) (zpos z ((z.getD 2 default).ir - 1)) none =
        (z.getD 2 default).r ∧
      angle3atoms (zpos z 2) (zpos z ((z.getD 2 default).ir - 1))
        (zpos z ((z.getD 2 default).ia - 1)) none = (z.getD 2 default).a) ∧
    (∀ i, 3 ≤ i → i < z.length →
      0 < (z.getD i default).r →
      0 < (z.getD i default).a → (z.getD i default).a < 180 →
      1 ≤ (z.getD i default).ir → (z.getD i default).ir ≤ i →
      1 ≤ (z.getD i default).ia → (z.getD i default).ia ≤ i →
      1 ≤ (z.getD i default).idr → (z.getD i default).idr ≤ i →
      zpos z ((z.getD i default).ia - 1) - zpos z ((z.getD i default).ir - 1) ≠ 0 →
      (zpos z ((z.getD i default).idr - 1) - zpos z ((z.getD i default).ia - 1)).cross
        (zpos z ((z.getD i default).ia - 1) - zpos z ((z.getD i default).ir - 1)) ≠ 0 →
      dist2atoms (zpos z i) (zpos z ((z.getD i default).ir - 1)) none =
        (z.getD i default).r ∧
      angle3atoms (zpos z i) (zpos z ((z.getD i default).ir - 1))
        (zpos z ((z.getD i default).ia - 1)) none = (z.getD i default).a ∧
      (-180 < (z.getD i default).d → (z.getD i default).d ≤ 180 →
        dihedral4 (zpos z i) (zpos z ((z.getD i default).ir - 1))
          (zpos z ((z.getD i default).ia - 1))
          (zpos z ((z.getD i default).idr - 1)) = (z.getD i default).d)) := by
  have hpi := Real.pi_pos
  have hpine := Real.pi_ne_zero
  refine ⟨?_, ?_, ?_⟩
  · intro hr1
    rw [zpos_one, zpos_zero, dist2atoms_none]
    simp only [vector.sub_def, vector.vabs]
    rw [show (0 - (z.getD 1 default).r) ^ 2 + (0 - (0:ℝ)) ^ 2 + (0 - (0:ℝ)) ^ 2 =
        (z.getD 1 default).r ^ 2 by ring]
    exact Real.sqrt_sq hr1.le
  · intro hr1 hr2 ha2 ha2' hir1 hir2 hia1 hia2 hne
    rw [zpos_two z (by omega) (by omega)]
    have hidx : ((z.getD 2 default).ir - 1 = 0 ∧ (z.getD 2 default).ia - 1 = 1) ∨
        ((z.getD 2 default).ir - 1 = 1 ∧ (z.getD 2 default).ia - 1 = 0) := by omega
    have hz0 : (zpos z 0).z = 0 := by rw [zpos_zero]
    have hz1 : (zpos z 1).z = 0 := by rw [zpos_one]
    have hposne : zpos z 1 ≠ zpos z 0 := by
      rw [zpos_zero, zpos_one]
      intro heq
      have := congrArg vector.x heq
      simp only at this
      linarith
    have hang0 : 0 < (z.getD 2 default).a * Real.pi / 180 := by positivity
    have hangpi : (z.getD 2 default).a * Real.pi / 180 < Real.pi := by
      rw [div_lt_iff (by norm_num : (0:ℝ) < 180)]
      nlinarith
    have hconv : (z.getD 2 default).a * Real.pi / 180 * 180 / Real.pi = (z.getD 2 default).a := by
      field_simp
    rcases hidx with ⟨hA, hB⟩ | ⟨hA, hB⟩
    · rw [hA, hB]
      have h := zthird_roundtrip (zpos z 0) (zpos z 1) (z.getD 2 default).r
        ((z.getD 2 default).a * Real.pi / 180) hr2 hang0 hangpi hz0 hz1 hposne
      exact ⟨h.1, by rw [h.2, hconv]⟩
    · rw [hA, hB]
      have h := zthird_roundtrip (zpos z 1) (zpos z 0) (z.getD 2 default).r
        ((z.getD 2 default).a * Real.pi / 180) hr2 hang0 hangpi hz1 hz0 hposne.symm
      exact ⟨h.1, by rw [h.2, hconv]⟩
  · intro i hi3 hilen hr ha ha' hir1 hir2 hia1 hia2 hid1 hid2 hnd1 hnd2
    obtain ⟨n, rfl⟩ : ∃ n, i = n + 3 := ⟨i - 3, by omega⟩
    rw [zpos_step z n (by omega) (by omega) (by omega)] at *
    have hang0 : 0 < (z.getD (n + 3) default).a * Real.pi / 180 := by positivity
    have hangpi : (z.getD (n + 3) default).a * Real.pi / 180 < Real.pi := by
      rw [div_lt_iff (by norm_num : (0:ℝ) < 180)]
      nlinarith
    have hconv : (z.getD (n + 3) default).a * Real.pi / 180 * 180 / Real.pi =
        (z.getD (n + 3) default).a := by
      field_simp
    have h := zstep_roundtrip (zpos z ((z.getD (n + 3) default).ir - 1))
      (zpos z ((z.getD (n + 3) default).ia - 1))
      (zpos z ((z.getD (n + 3) default).idr - 1))
      (z.getD (n + 3) default).r
      ((z.getD (n + 3) default).a * Real.pi / 180)
      ((z.getD (n + 3) default).d * Real.pi / 180)
      hr hang0 hangpi hnd1 hnd2
    refine ⟨h.1, by rw [h.2.1, hconv], ?_⟩
    intro hd1 hd2
    have hmem : (z.getD (n + 3) default).d * Real.pi / 180 ∈
        Set.Ioc (-Real.pi) Real.pi := by
      constructor
      · rw [neg_lt, ← neg_div, ← neg_mul]
        rw [div_lt_iff (by norm_num : (0:ℝ) < 180)]
        nlinarith
      · rw [div_le_iff (by norm_num : (0:ℝ) < 180)]
        nlinarith
    rw [h.2.2 hmem]
    field_simp

/-- a concrete 4-record z-matrix family: atom 1 at distance 1 from atom
0, atom 2 at distance 1 from atom 1 at 90 degrees to atom 0, and a
fourth record left as a parameter. -/
noncomputable def zbase (rec3 : zrec) : List zrec :=
  [⟨0, 0, 0, 0, 0, 0⟩, ⟨1, 1, 0, 1, 0, 1⟩, ⟨1, 2, 90, 1, 0, 1⟩, rec3]

theorem zbase_pos0 (rec3 : zrec) : zpos (zbase rec3) 0 = ⟨0, 0, 0⟩ :=
  zpos_zero _

theorem zbase_pos1 (rec3 : zrec) : zpos (zbase rec3) 1 = ⟨1, 0, 0⟩ := by
  rw [zpos_one]
  rfl

theorem zbase_pos2 (rec3 : zrec) : zpos (zbase rec3) 2 = ⟨1, 1, 0⟩ := by
  rw [zpos_two (zbase rec3) (by show (1 : Nat) < 2; decide) (by show (0 : Nat) < 2; decide)]
  show zthird (zpos (zbase rec3) 1) (zpos (zbase rec3) 0) 1 (90 * Real.pi / 180) = _
  rw [zbase_pos1, zbase_pos0]
  simp only [zthird]
  norm_num
  rw [show (90 : ℝ) * Real.pi / 180 = Real.pi / 2 by ring]
  exact ⟨Real.cos_pi_div_two, Real.sin_pi_div_two⟩

theorem zbase_pos3_360 : zpos (zbase ⟨1, 3, 90, 2, 360, 1⟩) 3 = ⟨0, 1, 0⟩ := by
  rw [show (3 : Nat) = 0 + 3 from rfl,
    zpos_step (zbase ⟨1, 3, 90, 2, 360, 1⟩) 0 (by show (2 : Nat) < 3; decide)
      (by show (1 : Nat) < 3; decide) (by show (0 : Nat) < 3; decide)]
  show zstep (zpos (zbase ⟨1, 3, 90, 2, 360, 1⟩) 2) (zpos (zbase ⟨1, 3, 90, 2, 360, 1⟩) 1)
      (zpos (zbase ⟨1, 3, 90, 2, 360, 1⟩) 0) 1 (90 * Real.pi / 180) (360 * Real.pi / 180) = _
  rw [zbase_pos2, zbase_pos1, zbase_pos0]
  rw [show (90 : ℝ) * Real.pi / 180 = Real.pi / 2 by ring]
  rw [show (360 : ℝ) * Real.pi / 180 = 2 * Real.pi by ring]
  simp only [zstep, vector.sub_def, vector.cross, vector.scale, vector.unit, vector.vabs,
    vector.add_def]
  simp only [Real.cos_pi_div_two, Real.sin_pi_div_two, Real.sin_two_pi, Real.cos_two_pi]
  norm_num

/-- C2 counterexample: the 4-record z-matrix with positive distances,
angles strictly inside (0, 180) and references to already-placed atoms
whose fourth record carries the dihedral d = 360 is valid in the
claim's sense, yet the dihedral recovered from the coordinates produced
by zmat2cart is 0, not 360: the round trip cannot hold exactly for
every real dihedral input, only modulo 360 degrees. -/
theorem zmat_roundtrip_counterexample :
    0 < ((zbase ⟨1, 3, 90, 2, 360, 1⟩).getD 3 default).r ∧
    0 < ((zbase ⟨1, 3, 90, 2, 360, 1⟩).getD 3 default).a ∧
    ((zbase ⟨1, 3, 90, 2, 360, 1⟩).getD 3 default).a < 180 ∧
    ((zbase ⟨1, 3, 90, 2, 360, 1⟩).getD 3 default).d = 360 ∧
    dihedral4 (zpos (zbase ⟨1, 3, 90, 2, 360, 1⟩) 3) (zpos (zbase ⟨1, 3, 90, 2, 360, 1⟩) 2)
      (zpos (zbase ⟨1, 3, 90, 2, 360, 1⟩) 1) (zpos (zbase ⟨1, 3, 90, 2, 360, 1⟩) 0) = 0 ∧
    dihedral4 (zpos (zbase ⟨1, 3, 90, 2, 360, 1⟩) 3) (zpos (zbase ⟨1, 3, 90, 2, 360, 1⟩) 2)
      (zpos (zbase ⟨1, 3, 90, 2, 360, 1⟩) 1) (zpos (zbase ⟨1, 3, 90, 2, 360, 1⟩) 0) ≠
      ((zbase ⟨1, 3, 90, 2, 360, 1⟩).getD 3 default).d := by
  have hdi : dihedral4 (zpos (zbase ⟨1, 3, 90, 2, 360, 1⟩) 3)
      (zpos (zbase ⟨1, 3, 90, 2, 360, 1⟩) 2) (zpos (zbase ⟨1, 3, 90, 2, 360, 1⟩) 1)
      (zpos (zbase ⟨1, 3, 90, 2, 360, 1⟩) 0) = 0 := by
    rw [zbase_pos3_360, zbase_pos2, zbase_pos1, zbase_pos0]
    simp only [dihedral4, vector.sub_def, vector.cross, vector.dot, vector.vabs]
    norm_num
    refine Or.inl ?_
    rw [show ({ re := 1, im := 0 } : ℂ) = 1 from by apply Complex.ext <;> simp]
    exact Complex.arg_one
  refine ⟨by norm_num [zbase], by norm_num [zbase], by norm_num [zbase],
    by norm_num [zbase], hdi, ?_⟩
  rw [hdi]
  norm_num [zbase]

/-- C2 witness: the same base z-matrix with dihedral 90 satisfies every
validity hypothesis of the amended round-trip theorem, which then
recovers distance 1, angle 90 and dihedral 90 for atom 3. -/
theorem zmat_roundtrip_witness :
    dist2atoms (zpos (zbase ⟨1, 3, 90, 2, 90, 1⟩) 3) (zpos (zbase ⟨1, 3, 90, 2, 90, 1⟩) 2)
      none = 1 ∧
    angle3atoms (zpos (zbase ⟨1, 3, 90, 2, 90, 1⟩) 3) (zpos (zbase ⟨1, 3, 90, 2, 90, 1⟩) 2)
      (zpos (zbase ⟨1, 3, 90, 2, 90, 1⟩) 1) none = 90 ∧
    dihedral4 (zpos (zbase ⟨1, 3, 90, 2, 90, 1⟩) 3) (zpos (zbase ⟨1, 3, 90, 2, 90, 1⟩) 2)
      (zpos (zbase ⟨1, 3, 90, 2, 90, 1⟩) 1) (zpos (zbase ⟨1, 3, 90, 2, 90, 1⟩) 0) = 90 := by
  have hnd1 : zpos (zbase ⟨1, 3, 90, 2, 90, 1⟩) 1 - zpos (zbase ⟨1, 3, 90, 2, 90, 1⟩) 2 ≠ 0 := by
    rw [zbase_pos1, zbase_pos2]
    intro heq
    have := congrArg vector.y heq
    simp only [vector.sub_def, vector.zero_def] at this
    norm_num at this
  have hnd2 : (zpos (zbase ⟨1, 3, 90, 2, 90, 1⟩) 0 - zpos (zbase ⟨1, 3, 90, 2, 90, 1⟩) 1).cross
      (zpos (zbase ⟨1, 3, 90, 2, 90, 1⟩) 1 - zpos (zbase ⟨1, 3, 90, 2, 90, 1⟩) 2) ≠ 0 := by
    rw [zbase_pos0, zbase_pos1, zbase_pos2]
    intro heq
    have := congrArg vector.z heq
    simp only [vector.sub_def, vector.cross, vector.zero_def] at this
    norm_num at this
  have h := (zmat_roundtrip (zbase ⟨1, 3, 90, 2, 90, 1⟩) (by decide)).2.2 3
    (by decide) (by decide)
    (by show (0:ℝ) < 1; norm_num)
    (by show (0:ℝ) < 90; norm_num)
    (by show (90:ℝ) < 180; norm_num)
    (by decide) (by decide) (by decide) (by decide) (by decide) (by decide)
    hnd1 hnd2
  refine ⟨h.1, h.2.1, ?_⟩
  have hd := h.2.2 (by show (-180:ℝ) < 90; norm_num) (by show (90:ℝ) ≤ 180; norm_num)
  exact hd

end FFTool
